import Mathlib

/-!
Verification of the schedule-bot core pipeline: a shallow embedding of
`schedule_bot/services/cache.py`, `schedule_bot/services/parser.py` and the
group normalizer of `schedule_bot/handlers/schedule.py`, with theorems about
the cache byte-budget/eviction policy, cache invalidation, TTL boundaries,
the parser's group lookup, workbook normalization and block segmentation.

Modelling conventions:
* Python strings are `List Char` (`Str`); byte strings are `List Nat`.
* `datetime.now()` timestamps are abstract `Nat` ticks passed explicitly as a
  `now` argument; a `timedelta` TTL is a `Nat` in the same ticks.
* Python dicts are association lists kept in insertion order; assigning to an
  existing key updates the entry in place (as CPython dicts do).
* Regular expressions are hand-translated to deterministic scanners; the
  comments at each scanner name the regex it implements.
-/

namespace ScheduleBot

/-- Python strings, modelled character by character. -/
abbrev Str := List Char

/-- The characters Python treats as whitespace for `\s`, `str.strip()` and
`str.split()` (the ASCII ones; the texts in scope use no exotic spaces). -/
def isSpaceChar (c : Char) : Bool :=
  c = ' ' || c = '\t' || c = '\n' || c = '\r' || c = '\x0b' || c = '\x0c'

/-- ASCII decimal digit, as matched by `\d` and tested by `str.isdigit`. -/
def isDigitChar (c : Char) : Bool :=
  '0'.toNat ≤ c.toNat && c.toNat ≤ '9'.toNat

/-- Uppercase letter (`str.isupper` on one char), for the Latin and Cyrillic
letters the schedule texts use. -/
def isUpperChar (c : Char) : Bool :=
  ('A'.toNat ≤ c.toNat && c.toNat ≤ 'Z'.toNat)
    || ('А'.toNat ≤ c.toNat && c.toNat ≤ 'Я'.toNat)
    || c = 'Ё'

/-- `str.lower` on one character (Latin and Cyrillic). -/
def lowerChar (c : Char) : Char :=
  if 'A'.toNat ≤ c.toNat && c.toNat ≤ 'Z'.toNat then Char.ofNat (c.toNat + 32)
  else if 'А'.toNat ≤ c.toNat && c.toNat ≤ 'Я'.toNat then Char.ofNat (c.toNat + 32)
  else if c = 'Ё' then 'ё'
  else c

/-- `str.upper` on one character (Latin and Cyrillic). -/
def upperChar (c : Char) : Char :=
  if 'a'.toNat ≤ c.toNat && c.toNat ≤ 'z'.toNat then Char.ofNat (c.toNat - 32)
  else if 'а'.toNat ≤ c.toNat && c.toNat ≤ 'я'.toNat then Char.ofNat (c.toNat - 32)
  else if c = 'ё' then 'Ё'
  else c

/-- `str.lower`. -/
def lowerStr (s : Str) : Str := s.map lowerChar

/-- `str.strip()`: drop leading and trailing whitespace. -/
def strip (s : Str) : Str :=
  ((s.dropWhile isSpaceChar).reverse.dropWhile isSpaceChar).reverse

/-- `ScheduleCache._normalize_group_name` (services/cache.py): the key
normalizer of the group-location cache, `re.sub(r"\s+", "", name).upper()` —
remove every whitespace character, then uppercase. -/
def normalize_group_name (name : Str) : Str :=
  (name.filter (fun c => !isSpaceChar c)).map upperChar

/-- `_normalize_group` (handlers/schedule.py): the Resolver's query
normalizer, `re.sub(r"\s+", "", name).upper()`. -/
def normalize_group (name : Str) : Str :=
  (name.filter (fun c => !isSpaceChar c)).map upperChar

/-- `hay.startswith needle` on strings: `List.isPrefixOf` under `=`. -/
def startsWithStr (hay needle : Str) : Bool := needle.isPrefixOf hay

/-- Python `needle in hay` substring membership. -/
def containsSub (hay needle : Str) : Bool :=
  match hay with
  | [] => needle.isEmpty
  | _ :: rest => needle.isPrefixOf hay || containsSub rest needle

/-- `str.replace(pat, rep)` for a nonempty `pat`, on fuel (one unit per
consumed character, so the string length is always enough): replace every
non-overlapping occurrence, scanning left to right. -/
def replaceSubGo (pat rep : Str) : Nat → Str → Str
  | _, [] => []
  | 0, s => s
  | fuel + 1, c :: rest =>
    if pat ≠ [] && pat.isPrefixOf (c :: rest) then
      rep ++ replaceSubGo pat rep fuel (rest.drop (pat.length - 1))
    else
      c :: replaceSubGo pat rep fuel rest

/-- `str.replace(pat, rep)`. -/
def replaceSub (pat rep : Str) (s : Str) : Str := replaceSubGo pat rep s.length s

/-- `re.sub(r"\s+", " ", s)` on fuel: collapse every whitespace run to one
space. -/
def collapseWsGo : Nat → Str → Str
  | _, [] => []
  | 0, s => s
  | fuel + 1, c :: rest =>
    if isSpaceChar c then ' ' :: collapseWsGo fuel (rest.dropWhile isSpaceChar)
    else c :: collapseWsGo fuel rest

/-- `re.sub(r"\s+", " ", s)`. -/
def collapseWs (s : Str) : Str := collapseWsGo s.length s

/-- `str.split("\n")`. -/
def splitNl : Str → List Str
  | [] => [[]]
  | c :: rest =>
    if c = '\n' then [] :: splitNl rest
    else
      match splitNl rest with
      | s :: ss => (c :: s) :: ss
      | [] => [[c]]

/-- `str.split()` with no argument, on fuel: split on whitespace runs, no
empty parts. -/
def splitWsGo : Nat → Str → List Str
  | _, [] => []
  | 0, _ => []
  | fuel + 1, c :: rest =>
    if isSpaceChar c then splitWsGo fuel rest
    else (c :: rest.takeWhile (fun x => !isSpaceChar x))
      :: splitWsGo fuel (rest.dropWhile (fun x => !isSpaceChar x))

/-- `str.split()` with no argument. -/
def splitWs (s : Str) : List Str := splitWsGo s.length s

/-- Order-preserving de-duplication (the `seen` set in `_combine_cells`). -/
def dedupKeepFirst (seen : List Str) : List Str → List Str
  | [] => []
  | x :: xs =>
    if x ∈ seen then dedupKeepFirst seen xs
    else x :: dedupKeepFirst (x :: seen) xs

/-- `int(digits)` for a run of decimal digits. -/
def digitsToNat (ds : Str) : Nat :=
  ds.foldl (fun a c => a * 10 + (c.toNat - '0'.toNat)) 0

/-! ### The week regexes of `parser.py`, as deterministic scanners

`scanAllRanges` is `re.findall` for a matcher that reports a parsed range and
the match length; `scanRemove` is `re.sub(pat, "", text)`.  Both resume after
the end of a match, as Python's `re` does; `scanAllRanges` tracks the
character before the current position for the `\b` of the second week
alternative. -/

/-- `re.findall` on fuel: collect the parsed ranges of every non-overlapping
match, scanning left to right; `prev` is the character just before the
position. -/
def scanAllRangesGo (m : Option Char → Str → Option ((Nat × Nat) × Nat)) :
    Nat → Option Char → Str → List (Nat × Nat)
  | _, _, [] => []
  | 0, _, _ => []
  | fuel + 1, prev, c :: rest =>
    match m prev (c :: rest) with
    | some (r, n) =>
      r :: scanAllRangesGo m fuel (some (((c :: rest).take n).getLastD c))
        (rest.drop (n - 1))
    | none => scanAllRangesGo m fuel (some c) rest

/-- `re.findall` for a matcher reporting a parsed range and match length. -/
def scanAllRanges (m : Option Char → Str → Option ((Nat × Nat) × Nat))
    (prev : Option Char) (s : Str) : List (Nat × Nat) :=
  scanAllRangesGo m s.length prev s

/-- `re.sub(pat, "", text)` on fuel, for a matcher reporting the match
length. -/
def scanRemoveGo (m : Str → Option Nat) : Nat → Str → Str
  | _, [] => []
  | 0, s => s
  | fuel + 1, c :: rest =>
    match m (c :: rest) with
    | some n => scanRemoveGo m fuel (rest.drop (n - 1))
    | none => c :: scanRemoveGo m fuel rest

/-- `re.sub(pat, "", text)` for a matcher reporting the match length. -/
def scanRemove (m : Str → Option Nat) (s : Str) : Str :=
  scanRemoveGo m s.length s

/-- Word character for Python's `\b` (ASCII letters, digits, underscore and
the Cyrillic letters in scope). -/
def isWordChar (c : Char) : Bool :=
  isDigitChar c || c = '_'
    || ('A'.toNat ≤ c.toNat && c.toNat ≤ 'Z'.toNat)
    || ('a'.toNat ≤ c.toNat && c.toNat ≤ 'z'.toNat)
    || ('А'.toNat ≤ c.toNat && c.toNat ≤ 'я'.toNat)
    || c = 'Ё' || c = 'ё'

/-- Match `\d+/\d+\s*гр\.?` (IGNORECASE) at the head of `s`, reporting the
match length: the subgroup annotations `_matches_week` removes first. -/
def subgroupMatchLen (s : Str) : Option Nat :=
  let d1 := (s.takeWhile isDigitChar).length
  if d1 = 0 then none else
  match s.drop d1 with
  | '/' :: r2 =>
    let d2 := (r2.takeWhile isDigitChar).length
    if d2 = 0 then none else
    let r3 := r2.drop d2
    let w := (r3.takeWhile isSpaceChar).length
    match r3.drop w with
    | g :: p :: r5 =>
      if (g = 'г' || g = 'Г') && (p = 'р' || p = 'Р') then
        match r5 with
        | '.' :: _ => some (d1 + 1 + d2 + w + 2 + 1)
        | _ => some (d1 + 1 + d2 + w + 2)
      else none
    | _ => none
  | _ => none

/-- Match `(\d+)\s*-\s*(\d+)\s*н|\b(\d+)\s*н` (IGNORECASE) at the head:
the explicit week markers of `_matches_week`.  A `N-M н` match yields the
range `(N, M)`, a single `N н` match yields `(N, N)` (the conversion the
Python loop over `week_patterns_with_n` performs). -/
def weekMarkAt (prev : Option Char) (s : Str) : Option ((Nat × Nat) × Nat) :=
  let ds1 := s.takeWhile isDigitChar
  if ds1.length = 0 then none else
  let r1 := s.drop ds1.length
  let w1 := (r1.takeWhile isSpaceChar).length
  let alt1 : Option ((Nat × Nat) × Nat) :=
    match r1.drop w1 with
    | '-' :: r2 =>
      let w2 := (r2.takeWhile isSpaceChar).length
      let ds2 := (r2.drop w2).takeWhile isDigitChar
      if ds2.length = 0 then none else
      let r3 := (r2.drop w2).drop ds2.length
      let w3 := (r3.takeWhile isSpaceChar).length
      match r3.drop w3 with
      | 'н' :: _ =>
        some ((digitsToNat ds1, digitsToNat ds2),
          ds1.length + w1 + 1 + w2 + ds2.length + w3 + 1)
      | 'Н' :: _ =>
        some ((digitsToNat ds1, digitsToNat ds2),
          ds1.length + w1 + 1 + w2 + ds2.length + w3 + 1)
      | _ => none
    | _ => none
  match alt1 with
  | some r => some r
  | none =>
    let boundary := match prev with
      | none => true
      | some p => !isWordChar p
    if boundary then
      match r1.drop w1 with
      | 'н' :: _ => some ((digitsToNat ds1, digitsToNat ds1), ds1.length + w1 + 1)
      | 'Н' :: _ => some ((digitsToNat ds1, digitsToNat ds1), ds1.length + w1 + 1)
      | _ => none
    else none

/-- Match `гр\.?\s+(\d+)\s*-\s*(\d+)` (IGNORECASE) at the head: the bare
ranges after a subgroup marker that `_matches_week` also accepts. -/
def grRangeAt (_prev : Option Char) (s : Str) : Option ((Nat × Nat) × Nat) :=
  match s with
  | g :: p :: r1 =>
    if (g = 'г' || g = 'Г') && (p = 'р' || p = 'Р') then
      let dot : Nat := match r1 with | '.' :: _ => 1 | _ => 0
      let r2 := r1.drop dot
      let w1 := (r2.takeWhile isSpaceChar).length
      if w1 = 0 then none else
      let ds1 := (r2.drop w1).takeWhile isDigitChar
      if ds1.length = 0 then none else
      let r3 := (r2.drop w1).drop ds1.length
      let w2 := (r3.takeWhile isSpaceChar).length
      match r3.drop w2 with
      | '-' :: r4 =>
        let w3 := (r4.takeWhile isSpaceChar).length
        let ds2 := (r4.drop w3).takeWhile isDigitChar
        if ds2.length = 0 then none else
        some ((digitsToNat ds1, digitsToNat ds2),
          2 + dot + w1 + ds1.length + w2 + 1 + w3 + ds2.length)
      | _ => none
    else none
  | _ => none

/-- Every week range `_matches_week` collects for `text`: the `N-M н` and
`N н` markers found after stripping `\d+/\d+\s*гр\.?` subgroup annotations,
followed by the bare `гр N-M` ranges of the original text whose bounds are
both at most 18. -/
def weekRanges (text : Str) : List (Nat × Nat) :=
  let text_clean := scanRemove subgroupMatchLen text
  let withN := scanAllRanges weekMarkAt none text_clean
  let noN := (scanAllRanges grRangeAt none text).filter
    (fun r => r.1 ≤ 18 && r.2 ≤ 18)
  withN ++ noN

/-- `_matches_week(text, current_week)` (parser.py): no collected range means
the lesson runs every week; otherwise the week must fall in some range. -/
def matches_week (text : Str) (current_week : Nat) : Bool :=
  let all_ranges := weekRanges text
  if all_ranges.isEmpty then true
  else all_ranges.any (fun r => r.1 ≤ current_week && current_week ≤ r.2)

/-- Match `\d+\s*(?:[-–]\s*\d+)?\s*н` at the head of a (lowered) string:
the week-marker search of `_contains_week`. -/
def weekHintAt (s : Str) : Bool :=
  let ds1 := s.takeWhile isDigitChar
  if ds1.length = 0 then false else
  let r1 := (s.drop ds1.length)
  let w1 := (r1.takeWhile isSpaceChar).length
  match r1.drop w1 with
  | 'н' :: _ => true
  | c :: r2 =>
    if c = '-' || c = '–' then
      let w2 := (r2.takeWhile isSpaceChar).length
      let ds2 := (r2.drop w2).takeWhile isDigitChar
      if ds2.length = 0 then false else
      let r3 := (r2.drop w2).drop ds2.length
      let w3 := (r3.takeWhile isSpaceChar).length
      match r3.drop w3 with
      | 'н' :: _ => true
      | _ => false
    else false
  | _ => false

/-- `re.search` for `weekHintAt`: a match at some position. -/
def hasWeekHint : Str → Bool
  | [] => false
  | c :: rest => weekHintAt (c :: rest) || hasWeekHint rest

/-- `_contains_week(text)` (parser.py): `re.search(r"\d+\s*(?:[-–]\s*\d+)?\s*н",
text.lower())` after an emptiness guard. -/
def contains_week (text : Str) : Bool :=
  if text = [] then false else hasWeekHint (lowerStr text)

/-! ### The schedule parser (`services/parser.py`)

A sheet is modelled as its grid of cells, row by row: a cell is `none` for an
empty cell (pandas `NaN`) or `some` text.  `load_sheet` reads the grid the
way `pd.read_excel(..., header=6)` does: row index 6 is the header row, later
rows are data; a `NaN` header becomes an `Unnamed: i` placeholder. -/

/-- One spreadsheet row: cells left to right, `none` for an empty cell. -/
abbrev Row := List (Option Str)

/-- The dataframe `_load_sheet` produces: kept column names and the data rows
projected to those columns. -/
structure DFrame where
  cols : List Str
  rows : List Row
deriving DecidableEq

/-- `DAY_COLUMN` (parser.py). -/
def DAY_COLUMN : Str := "День".toList

/-- `TIME_COLUMN` (parser.py). -/
def TIME_COLUMN : Str := "Время занятий".toList

/-- `Lesson` (parser.py). -/
structure Lesson where
  day : Str
  time : Str
  description : Str
deriving DecidableEq

/-- `LessonBlock` (parser.py). -/
structure LessonBlock where
  title : Str
  details : List Str
deriving DecidableEq

/-- The two error exits of `extract_group_schedule`: the group-not-found
`ValueError` (listing the available groups) raised when the requested group
is not a column, and the missing-day/time-column `ValueError` raised by
`_normalize_schedule`. -/
inductive ScheduleError where
  | group_not_found (available : Str)
  | missing_column (column : Str)
deriving DecidableEq

/-- The name pandas gives column `i` when its header cell is empty. -/
def pandasColName (i : Nat) : Option Str → Str
  | some s => s
  | none => "Unnamed: ".toList ++ (Nat.repr i).toList

/-- `_cleanup_column_name` (parser.py): collapse whitespace and strip; keep
`Unnamed` placeholders; otherwise remove spaces next to hyphens and double
spaces. -/
def cleanup_column_name (name : Str) : Str :=
  let normalized := strip (collapseWs name)
  if startsWithStr normalized "Unnamed".toList then normalized
  else
    let n1 := replaceSub " -".toList "-".toList normalized
    let n2 := replaceSub "- ".toList "-".toList n1
    replaceSub "  ".toList " ".toList n2

/-- `_load_sheet` (parser.py): header row at index 6, later rows as data;
column names cleaned up, `Unnamed*` columns dropped and the data projected to
the kept columns. -/
def load_sheet (sheet : List Row) : DFrame :=
  match sheet.drop 6 with
  | [] => { cols := [], rows := [] }
  | header :: dataRows =>
    let named := header.enum.map
      (fun p => (p.1, cleanup_column_name (pandasColName p.1 p.2)))
    let kept := named.filter
      (fun p => !startsWithStr p.2 "Unnamed".toList)
    { cols := kept.map (fun p => p.2),
      rows := dataRows.map (fun r => kept.map (fun p => r.getD p.1 none)) }

/-- `list_groups` (parser.py): every kept column except the day and time
columns. -/
def list_groups (sheet : List Row) : List Str :=
  (load_sheet sheet).cols.filter
    (fun c => !(c = DAY_COLUMN || c = TIME_COLUMN))

/-- `_combine_cells` (parser.py): keep the stripped non-blank values of a
group's rows, de-duplicate preserving order, join with newlines; `None` when
nothing remains. -/
def combine_cells (values : List (Option Str)) : Option Str :=
  let vs := ((values.filterMap id).map strip).filter (fun s => s ≠ [])
  let unique_values := dedupKeepFirst [] vs
  if unique_values = [] then none
  else some (List.intercalate "\n".toList unique_values)

/-- Code-point order on strings, as Python compares `str` (used by the
default `sort=True` of `DataFrame.groupby`). -/
def strLt : Str → Str → Bool
  | [], [] => false
  | [], _ :: _ => true
  | _ :: _, [] => false
  | a :: as_, b :: bs => a.toNat < b.toNat || (a = b && strLt as_ bs)

/-- Lexicographic order on `(day, time)` group keys. -/
def keyLt (k1 k2 : Str × Str) : Bool :=
  strLt k1.1 k2.1 || (k1.1 = k2.1 && strLt k1.2 k2.2)

/-- Insert into a `keyLt`-sorted key list. -/
def insertKey (k : Str × Str) : List (Str × Str) → List (Str × Str)
  | [] => [k]
  | x :: xs => if keyLt x k then x :: insertKey k xs else k :: x :: xs

/-- Sort group keys ascending, as pandas `groupby(sort=True)` orders groups. -/
def sortKeys : List (Str × Str) → List (Str × Str)
  | [] => []
  | x :: xs => insertKey x (sortKeys xs)

/-- Order-preserving de-duplication of group keys. -/
def dedupKeys (seen : List (Str × Str)) : List (Str × Str) → List (Str × Str)
  | [] => []
  | x :: xs =>
    if x ∈ seen then dedupKeys seen xs
    else x :: dedupKeys (x :: seen) xs

/-- `Series.ffill` over one projected column. -/
def ffillCol (last : Option Str) : List (Option Str) → List (Option Str)
  | [] => []
  | c :: rest =>
    match c with
    | some v => some v :: ffillCol (some v) rest
    | none => last :: ffillCol last rest

/-- `_normalize_schedule` (parser.py): require the day and time columns,
forward-fill them, drop rows whose content cells are all empty, group the
remaining rows by `(day, time)` (rows with an empty key are dropped, groups
ordered ascending as pandas sorts them) and aggregate every content column
with `_combine_cells`.  The result rows are `(day, time, content cells)`
with the content cells in `content_columns` order. -/
def normalize_schedule (df : DFrame) :
    Except ScheduleError (List (Str × Str × Row)) :=
  if DAY_COLUMN ∉ df.cols then .error (.missing_column DAY_COLUMN)
  else if TIME_COLUMN ∉ df.cols then .error (.missing_column TIME_COLUMN)
  else
    let dayIdx := (df.cols.enum.filter (fun p => p.2 = DAY_COLUMN)).headD (0, []) |>.1
    let timeIdx := (df.cols.enum.filter (fun p => p.2 = TIME_COLUMN)).headD (0, []) |>.1
    let contentIdxs := (df.cols.enum.filter
      (fun p => !(p.2 = DAY_COLUMN || p.2 = TIME_COLUMN))).map (fun p => p.1)
    let days := ffillCol none (df.rows.map (fun r => r.getD dayIdx none))
    let times := ffillCol none (df.rows.map (fun r => r.getD timeIdx none))
    let contents := df.rows.map (fun r => contentIdxs.map (fun i => r.getD i none))
    let rows1 := (days.zip (times.zip contents)).filter
      (fun t => t.2.2.any (fun c => c.isSome))
    let rows2 := rows1.filterMap (fun t =>
      match t.1, t.2.1 with
      | some d, some tm => some (d, tm, t.2.2)
      | _, _ => none)
    let keys := sortKeys (dedupKeys [] (rows2.map (fun r => (r.1, r.2.1))))
    .ok (keys.map (fun k =>
      let group := rows2.filter (fun r => r.1 = k.1 && r.2.1 = k.2)
      (k.1, k.2, (List.range contentIdxs.length).map
        (fun j => combine_cells (group.map (fun r => r.2.2.getD j none))))))

/-- The content columns of a loaded sheet, in order. -/
def contentColumns (df : DFrame) : List Str :=
  df.cols.filter (fun c => !(c = DAY_COLUMN || c = TIME_COLUMN))

/-- `row[group_name]` on an aggregated row: the day or time key for those
column names, otherwise the aggregated cell of the group's content column. -/
def aggCell (ccols : List Str) (r : Str × Str × Row) (g : Str) : Option Str :=
  if g = DAY_COLUMN then some r.1
  else if g = TIME_COLUMN then some r.2.1
  else
    let j := ((ccols.enum.filter (fun p => p.2 = g)).headD (0, [])).1
    r.2.2.getD j none

/-- The `markers` list of `is_title` inside `_merge_blocks`. -/
def title_markers : List Str :=
  ["(лек".toList, "(лаб".toList, "(прак".toList, "(сем".toList,
    "(пр".toList, "курс".toList]

/-- `is_title` inside `_merge_blocks` (parser.py), branch for branch: not a
URL, not an auditorium line, no digit among the first six characters; an
uppercase start with a lesson-type marker is a title; otherwise no period,
an uppercase start, and then the word-count cases (which always succeed). -/
def is_title (text : Str) : Bool :=
  if text = [] then false
  else if startsWithStr text "http".toList then false
  else if containsSub (lowerStr text) "ауд".toList then false
  else if (text.take 6).any isDigitChar then false
  else if (match text with
    | c :: _ => isUpperChar c
    | [] => false) && title_markers.any (fun m => containsSub text m) then true
  else if containsSub text ".".toList then false
  else if !(match text with
    | c :: _ => isUpperChar c
    | [] => false) then false
  else
    let words := splitWs text
    if words.length ≥ 3 then true
    else if words.length ≤ 2 then true
    else false

/-- The fold state of the line loop in `_merge_blocks`: collected blocks, the
open block's title and detail lines, and its week-marker flag. -/
structure MBState where
  blocks : List LessonBlock
  title : Option Str
  details : List Str
  hasWeek : Bool
deriving DecidableEq

/-- `flush()` inside `_merge_blocks`: append the open block when its title is
non-empty, then reset. -/
def mbFlush (st : MBState) : MBState :=
  { blocks :=
      match st.title with
      | some t => if t ≠ [] then st.blocks ++ [⟨t, st.details⟩] else st.blocks
      | none => st.blocks,
    title := none, details := [], hasWeek := false }

/-- One iteration of the line loop in `_merge_blocks`. -/
def mbStep (st : MBState) (line : Str) : MBState :=
  let stripped := strip line
  if stripped = [] then st
  else
    match st.title with
    | none => { st with title := some stripped, hasWeek := contains_week stripped }
    | some _ =>
      if is_title stripped then
        let f := mbFlush st
        { f with title := some stripped, hasWeek := contains_week stripped }
      else if contains_week stripped && st.hasWeek then
        let f := mbFlush st
        { f with title := some stripped, hasWeek := contains_week stripped }
      else
        { st with details := st.details ++ [stripped],
                  hasWeek := st.hasWeek || contains_week stripped }

/-- The stripped lines `_merge_blocks` iterates over. -/
def linesOf (content : Str) : List Str :=
  (splitNl (replaceSub "\r\n".toList "\n".toList content)).map strip

/-- The non-blank stripped lines of a cell. -/
def nonblankLines (content : Str) : List Str :=
  (linesOf content).filter (fun l => l ≠ [])

/-- `_merge_blocks(content)` (parser.py): split the cell text into stripped
lines, run the title/detail classification loop, flush, and fall back to one
block holding the stripped content when no block was produced. -/
def merge_blocks (content : Str) : List LessonBlock :=
  let lines := linesOf content
  let st := mbFlush (lines.foldl mbStep ⟨[], none, [], false⟩)
  if st.blocks = [] then
    let stripped := strip content
    if stripped = [] then [] else [⟨stripped, []⟩]
  else st.blocks

/-- `_format_block` (parser.py): bold bullet title, then the detail lines. -/
def format_block (block : LessonBlock) : Str :=
  List.intercalate "\n".toList
    (("• <b>".toList ++ block.title ++ "</b>".toList) :: block.details)

/-- The skip test `if day_filter and day_filter.lower() != day.lower()`:
an empty-string filter is falsy and never skips. -/
def dayFilterSkip (day_filter : Option Str) (day : Str) : Bool :=
  match day_filter with
  | some f => f ≠ [] && lowerStr f ≠ lowerStr day
  | none => false

/-- The per-row body of the loop in `extract_group_schedule`: skip blank
content and filtered-out days, filter blocks by the current week when one is
given, and format the surviving blocks into a `Lesson`. -/
def lessonOfRow (ccols : List Str) (group_name : Str) (day_filter : Option Str)
    (current_week : Option Nat) (r : Str × Str × Row) : Option Lesson :=
  match aggCell ccols r group_name with
  | none => none
  | some content =>
    if strip content = [] then none
    else if dayFilterSkip day_filter r.1 then none
    else
      let blocks :=
        match current_week with
        | some w =>
          (merge_blocks content).filter (fun block =>
            matches_week (List.intercalate "\n".toList
              (block.title :: block.details)) w)
        | none => merge_blocks content
      if blocks = [] then none
      else some ⟨r.1, r.2.1,
        List.intercalate "\n\n".toList (blocks.map format_block)⟩

/-- `extract_group_schedule` (parser.py): load the sheet, raise the
group-not-found error when the group is no column (joining the available
columns), normalize, and build the lesson list row by row. -/
def extract_group_schedule (sheet : List Row) (group_name : Str)
    (day_filter : Option Str) (current_week : Option Nat) :
    Except ScheduleError (List Lesson) :=
  let df := load_sheet sheet
  if group_name ∈ df.cols then
    match normalize_schedule df with
    | .error e => .error e
    | .ok rows =>
      .ok (rows.filterMap
        (lessonOfRow (contentColumns df) group_name day_filter current_week))
  else .error (.group_not_found (List.intercalate ", ".toList df.cols))

/-! ### Workbook normalization (`process_workbook`, parser.py)

A workbook is its worksheets; a worksheet its cell grid (1-indexed through
`cell(row, col)`, which creates missing cells as empty) and its merged
ranges.  Serialization is modelled as the identity on this value: the byte
string stands for the workbook `load_workbook` reads from it. -/

/-- One merged range, 1-indexed bounds inclusive (openpyxl `CellRange`). -/
structure MergedRange where
  min_row : Nat
  min_col : Nat
  max_row : Nat
  max_col : Nat
deriving DecidableEq

/-- One worksheet: the grid and its merged ranges. -/
structure Worksheet where
  cells : List (List (Option Str))
  merged_cells : List MergedRange
deriving DecidableEq

/-- A workbook is its sheets in order. -/
abbrev Workbook := List Worksheet

/-- `sheet.cell(r, c).value` for existing cells, `None` beyond the grid. -/
def cellValue (grid : List (List (Option Str))) (r c : Nat) : Option Str :=
  (grid.getD (r - 1) []).getD (c - 1) none

/-- `sheet.cell(r, c).value = v` guarded by `if cell.value is None`: pad the
grid so the cell exists, then write only when the cell is empty. -/
def setCellIfEmpty (grid : List (List (Option Str))) (r c : Nat)
    (v : Option Str) : List (List (Option Str)) :=
  let grid2 := grid ++ List.replicate (r - grid.length) []
  let row := grid2.getD (r - 1) []
  if row.getD (c - 1) none = none then
    grid2.set (r - 1) ((row ++ List.replicate (c - row.length) none).set (c - 1) v)
  else grid2

/-- The cells of one merged range, row major. -/
def rangeCells (mr : MergedRange) : List (Nat × Nat) :=
  (List.range' mr.min_row (mr.max_row + 1 - mr.min_row)).flatMap
    (fun r => (List.range' mr.min_col (mr.max_col + 1 - mr.min_col)).map
      (fun c => (r, c)))

/-- The body of the per-range loop in `process_workbook`: read the top-left
value and write it into every empty cell of the range. -/
def applyMergedRange (grid : List (List (Option Str))) (mr : MergedRange) :
    List (List (Option Str)) :=
  let value := cellValue grid mr.min_row mr.min_col
  (rangeCells mr).foldl (fun g rc => setCellIfEmpty g rc.1 rc.2 value) grid

/-- One sheet after the merged-range loop: every range filled and unmerged
(`unmerge_cells` removes each range of the snapshot, leaving none). -/
def processSheet (ws : Worksheet) : Worksheet :=
  { cells := ws.merged_cells.foldl applyMergedRange ws.cells,
    merged_cells := [] }

/-- `process_workbook` (parser.py): expand every merged range on every sheet;
when no sheet had a merged range, return the input unchanged instead of
re-serializing. -/
def process_workbook (wb : Workbook) : Workbook :=
  let changed := wb.any (fun ws => !ws.merged_cells.isEmpty)
  if changed then
    wb.map (fun ws => if ws.merged_cells.isEmpty then ws else processSheet ws)
  else wb

/-! ### The cache (`services/cache.py`)

`ScheduleCache` holds the four caches, the byte-size counter and the disk
mirror.  The disk is modelled as a url-keyed store (`_hash_url` is injective
on the urls in scope, so keying by url is faithful). -/

/-- `ScheduleFile` (services/fetcher.py). -/
structure ScheduleFile where
  title : String
  url : String
deriving DecidableEq

/-- Raw bytes of one downloaded file. -/
abbrev Bytes := List Nat

/-- One raw-byte cache entry: `url -> (timestamp, content)` with the dict
position kept in the list order. -/
structure CEntry where
  url : String
  time : Nat
  content : Bytes
deriving DecidableEq

/-- One metadata cache entry: `url -> (timestamp, sheet -> groups)`. -/
structure MEntry where
  url : String
  time : Nat
  sheets : List (String × List Str)
deriving DecidableEq

/-- One group-location entry:
`normalized_group -> (timestamp, url, sheet, actual group name)`. -/
structure GEntry where
  key : Str
  time : Nat
  url : String
  sheet : String
  actual : Str
deriving DecidableEq

/-- `ScheduleCache` state (services/cache.py `__init__`). -/
structure ScheduleCache where
  ttl : Nat
  metadata_ttl : Nat
  group_location_ttl : Nat
  max_cache_size : Nat
  file_list_cache : Option (Nat × List ScheduleFile)
  file_list_signature : Option (List (String × String))
  file_content_cache : List CEntry
  current_cache_size : Int
  file_metadata_cache : List MEntry
  group_location_cache : List GEntry
  disk : List (String × Bytes)
  watchers : List Int
deriving DecidableEq

namespace ScheduleCache

/-- `__init__`: empty caches, zero size counter, metadata TTL twice and
group-location TTL four times the content TTL (`max_cache_size` is already
in bytes). -/
def init (ttl_minutes : Nat) (max_cache_size : Nat) : ScheduleCache :=
  { ttl := ttl_minutes, metadata_ttl := ttl_minutes * 2,
    group_location_ttl := ttl_minutes * 4, max_cache_size := max_cache_size,
    file_list_cache := none, file_list_signature := none,
    file_content_cache := [], current_cache_size := 0,
    file_metadata_cache := [], group_location_cache := [],
    disk := [], watchers := [] }

/-- Dict assignment for the raw-byte cache: update the entry in place when
the key exists, else append. -/
def dictSetContent (l : List CEntry) (u : String) (t : Nat) (c : Bytes) :
    List CEntry :=
  if l.any (fun e => e.url = u) then
    l.map (fun e => if e.url = u then ⟨u, t, c⟩ else e)
  else l ++ [⟨u, t, c⟩]

/-- Dict assignment for the disk store. -/
def dictSetDisk (l : List (String × Bytes)) (u : String) (c : Bytes) :
    List (String × Bytes) :=
  if l.any (fun e => e.1 = u) then
    l.map (fun e => if e.1 = u then (u, c) else e)
  else l ++ [(u, c)]

/-- `get_file_content` (services/cache.py): `None` on a miss; on an expired
entry (`now - cached_time > ttl`) delete it, subtract its length and return
`None`; otherwise the cached bytes. -/
def get_file_content (st : ScheduleCache) (now : Nat) (u : String) :
    Option Bytes × ScheduleCache :=
  match st.file_content_cache.find? (fun e => e.url = u) with
  | none => (none, st)
  | some e =>
    if st.ttl < now - e.time then
      (none,
        { st with
          file_content_cache := st.file_content_cache.filter (fun x => x.url ≠ u),
          current_cache_size := st.current_cache_size - e.content.length })
    else (some e.content, st)

/-- Stable insertion by timestamp (`sorted` is stable, so an entry goes
after every earlier entry whose time is not larger). -/
def insertByTime (e : CEntry) : List CEntry → List CEntry
  | [] => [e]
  | x :: xs => if x.time < e.time then x :: insertByTime e xs else e :: x :: xs

/-- `sorted(self._file_content_cache.items(), key=time)`. -/
def sortByTime : List CEntry → List CEntry
  | [] => []
  | x :: xs => insertByTime x (sortByTime xs)

/-- The `while` loop of `_evict_oldest_if_needed`: pop the sorted snapshot
front and delete it from the cache while the size exceeds the limit. -/
def evictGo (maxSize : Nat) : List CEntry → ScheduleCache → ScheduleCache
  | [], st => st
  | e :: rest, st =>
    if (maxSize : Int) < st.current_cache_size then
      evictGo maxSize rest
        { st with
          file_content_cache := st.file_content_cache.filter (fun x => x.url ≠ e.url),
          current_cache_size := st.current_cache_size - e.content.length }
    else st

/-- `_evict_oldest_if_needed` (services/cache.py). -/
def evict_oldest_if_needed (st : ScheduleCache) : ScheduleCache :=
  if st.current_cache_size ≤ (st.max_cache_size : Int) then st
  else evictGo st.max_cache_size (sortByTime st.file_content_cache) st

/-- `set_file_content` (services/cache.py): subtract a replaced entry's
length, insert the new entry with the current time, add its length, evict if
over budget, and optionally persist to disk. -/
def set_file_content (st : ScheduleCache) (now : Nat) (u : String)
    (content : Bytes) (persist : Bool) : ScheduleCache :=
  let st1 :=
    match st.file_content_cache.find? (fun e => e.url = u) with
    | some e => { st with current_cache_size := st.current_cache_size - e.content.length }
    | none => st
  let st2 :=
    { st1 with
      file_content_cache := dictSetContent st1.file_content_cache u now content,
      current_cache_size := st1.current_cache_size + content.length }
  let st3 := st2.evict_oldest_if_needed
  if persist then { st3 with disk := dictSetDisk st3.disk u content } else st3

/-- `_prune_storage` (services/cache.py): delete disk files for gone urls,
pop their in-memory entries (subtracting non-empty lengths, the `if content:`
guard), and drop their metadata. -/
def prune_storage (st : ScheduleCache) (active_urls : List String) :
    ScheduleCache :=
  let removed := st.file_content_cache.filter (fun e => !active_urls.contains e.url)
  { st with
    disk := st.disk.filter (fun p => active_urls.contains p.1),
    file_content_cache := st.file_content_cache.filter
      (fun e => active_urls.contains e.url),
    current_cache_size := removed.foldl
      (fun s e => if e.content = [] then s else s - e.content.length)
      st.current_cache_size,
    file_metadata_cache := st.file_metadata_cache.filter
      (fun m => active_urls.contains m.url) }

/-- `update_file_list` (services/cache.py): store the new list and its
`(url, title)` signature; when the signature changed, prune storage for the
new urls and delete every group-location entry pointing at a gone url. -/
def update_file_list (st : ScheduleCache) (now : Nat)
    (files : List ScheduleFile) : Bool × ScheduleCache :=
  let signature := files.map (fun f => (f.url, f.title))
  let changed := some signature ≠ st.file_list_signature
  let st1 := { st with file_list_signature := some signature,
                       file_list_cache := some (now, files) }
  if changed then
    let active_urls := files.map (fun f => f.url)
    let st2 := st1.prune_storage active_urls
    let groups_to_remove := (st2.group_location_cache.filter
      (fun g => !active_urls.contains g.url)).map (fun g => g.key)
    let glc := st2.group_location_cache.filter
      (fun g => !groups_to_remove.contains g.key)
    (true, { st2 with group_location_cache := glc })
  else (false, st1)

/-- `set_group_location` (services/cache.py): store under the normalized key,
dict-assignment semantics. -/
def set_group_location (st : ScheduleCache) (now : Nat) (group_name : Str)
    (file_url sheet_name : String) (actual_group_name : Str) : ScheduleCache :=
  let normalized := normalize_group_name group_name
  let e : GEntry := ⟨normalized, now, file_url, sheet_name, actual_group_name⟩
  { st with group_location_cache :=
      if st.group_location_cache.any (fun g => g.key = normalized) then
        st.group_location_cache.map (fun g => if g.key = normalized then e else g)
      else st.group_location_cache ++ [e] }

/-- `clear` (services/cache.py): drop the file list, its signature, the
raw-byte entries and the watchers — and nothing else (in particular the
byte-size counter is left as it was). -/
def clear (st : ScheduleCache) : ScheduleCache :=
  { st with file_list_cache := none, file_list_signature := none,
            file_content_cache := [], watchers := [] }

end ScheduleCache

/-- Total byte length held by a raw-byte cache entry list. -/
def entrySize (l : List CEntry) : Int :=
  (l.map (fun e => (e.content.length : Int))).sum

/-- The byte-size counter agrees with the bytes actually cached. -/
def sizeConsistent (st : ScheduleCache) : Prop :=
  st.current_cache_size = entrySize st.file_content_cache

/-- The raw-byte cache holds each url at most once (a dict invariant). -/
def keysNodup (l : List CEntry) : Prop :=
  (l.map (fun e => e.url)).Nodup

/-- The longest suffix of an entry list whose byte total fits the budget:
what oldest-first eviction leaves standing. -/
def fitSuffix (maxSize : Nat) : List CEntry → List CEntry
  | [] => []
  | e :: rest =>
    if entrySize (e :: rest) ≤ (maxSize : Int) then e :: rest
    else fitSuffix maxSize rest

/-- One `set_file_content(url, content, persist=True)` call at a tick. -/
structure SetCall where
  time : Nat
  url : String
  content : Bytes
deriving DecidableEq

/-- Run a sequence of `set_file_content` calls. -/
def runSets (st : ScheduleCache) : List SetCall → ScheduleCache
  | [] => st
  | c :: cs => runSets (st.set_file_content c.time c.url c.content true) cs

/-- The cache entry a `set_file_content` call inserts. -/
def toEntry (c : SetCall) : CEntry := ⟨c.url, c.time, c.content⟩

/-- The rows of a normalization result, `[]` on a parse error. -/
def exceptRows (r : Except ScheduleError (List (Str × Str × Row))) :
    List (Str × Str × Row) :=
  match r with
  | .ok rows => rows
  | .error _ => []

/-- A contributing aggregated row carries no week annotation: its cell for
the group either does not survive the blank/day filters, or every one of its
segmented blocks has an empty collected week-range list. -/
def noWeekMarksRow (ccols : List Str) (group_name : Str)
    (day_filter : Option Str) (r : Str × Str × Row) : Bool :=
  match aggCell ccols r group_name with
  | none => true
  | some content =>
    if strip content = [] then true
    else if dayFilterSkip day_filter r.1 then true
    else (merge_blocks content).all (fun block =>
      (weekRanges (List.intercalate "\n".toList
        (block.title :: block.details))).isEmpty)

/-! ### Concrete states used by witnesses and counterexamples -/

/-- A one-file listing. -/
def exFiles : List ScheduleFile := [⟨"T1", "f1"⟩]

/-- A cache that saw `exFiles`, then cached a shortcut pointing at the url
`u2`, which is not in the listing. -/
def exDangling : ScheduleCache :=
  (((ScheduleCache.init 30 100).update_file_list 0 exFiles).2).set_group_location
    1 ("G 1".toList) "u2" "S" ("G1".toList)

/-- A cache that saw `exFiles`, then cached a shortcut pointing at the listed
url `f1`. -/
def exListed : ScheduleCache :=
  (((ScheduleCache.init 30 100).update_file_list 0 exFiles).2).set_group_location
    1 ("G 1".toList) "f1" "S" ("G1".toList)

/-- A cache with nine cached bytes across two urls. -/
def exLoaded : ScheduleCache :=
  (((ScheduleCache.init 30 10).set_file_content 1 "A" [1, 1, 1, 1, 1, 1]
    false).set_file_content 2 "B" [2, 2, 2] false)

/-- A tiny sheet: six banner rows, a header row and one data row. -/
def exSheet : List Row :=
  [[], [], [], [], [], [],
    [some "День".toList, some "Время занятий".toList, some "Г1".toList],
    [some "Понедельник".toList, some "09:00".toList, some "Физика".toList]]

/-! ## Theorems -/

/-- `normalize_schedule` only ever raises the missing-column error. -/
theorem normalize_schedule_no_group_error (df : DFrame) (a : Str) :
    normalize_schedule df ≠ .error (.group_not_found a) := by
  unfold normalize_schedule
  split
  · simp
  · split <;> simp

/-- C3: `extract_group_schedule` raises the group-not-found error (listing
the available groups) exactly when the requested group is not a column of
the sheet loaded with the fixed header row, cleaned-up column names and
`Unnamed` columns dropped — never when the group is a header, always when it
is not. -/
theorem group_not_found_iff (sheet : List Row) (g : Str) (day_filter : Option Str)
    (current_week : Option Nat) :
    (∃ available, extract_group_schedule sheet g day_filter current_week
      = .error (.group_not_found available)) ↔ g ∉ (load_sheet sheet).cols := by
  unfold extract_group_schedule
  by_cases h : g ∈ (load_sheet sheet).cols
  · simp only [if_pos h, h, not_true_eq_false, iff_false, not_exists]
    intro a
    cases hn : normalize_schedule (load_sheet sheet) with
    | error e =>
      simp only [hn]
      intro he
      apply normalize_schedule_no_group_error (load_sheet sheet) a
      rw [hn]
      injection he with he2
      rw [he2]
    | ok rows => simp [hn]
  · simp only [if_neg h, h, not_false_eq_true, iff_true]
    exact ⟨List.intercalate ", ".toList (load_sheet sheet).cols, rfl⟩

/-- When no sheet has a merged range, `process_workbook` takes its
no-change branch and returns the input. -/
theorem process_workbook_no_merged (wb : Workbook)
    (h : ∀ ws ∈ wb, ws.merged_cells = []) : process_workbook wb = wb := by
  unfold process_workbook
  rw [if_neg]
  intro hany
  obtain ⟨ws, hws, hne⟩ := List.any_eq_true.mp hany
  rw [h ws hws] at hne
  simp at hne

/-- After a changed `process_workbook` pass, no sheet has a merged range. -/
theorem process_workbook_all_empty (wb : Workbook)
    (h : (wb.any fun ws => !ws.merged_cells.isEmpty) = true) :
    ∀ ws ∈ process_workbook wb, ws.merged_cells = [] := by
  unfold process_workbook
  rw [if_pos h]
  intro ws hws
  obtain ⟨ws0, hws0, heq⟩ := List.mem_map.mp hws
  by_cases h0 : ws0.merged_cells.isEmpty
  · rw [← heq, if_pos h0]
    exact List.isEmpty_iff.mp h0
  · rw [← heq, if_neg h0]
    rfl

/-- C4: workbook normalization is idempotent, and it returns its input
unchanged whenever no sheet has a merged range. -/
theorem process_workbook_idem (wb : Workbook) :
    process_workbook (process_workbook wb) = process_workbook wb ∧
    ((∀ ws ∈ wb, ws.merged_cells = []) → process_workbook wb = wb) := by
  refine ⟨?_, process_workbook_no_merged wb⟩
  by_cases h : (wb.any fun ws => !ws.merged_cells.isEmpty) = true
  · exact process_workbook_no_merged _ (process_workbook_all_empty wb h)
  · have heq : process_workbook wb = wb := by
      unfold process_workbook
      rw [if_neg h]
    simp only [heq]

/-- C6: the group-location cache's key normalizer and the Resolver's query
normalizer compute the same function — strip all whitespace, uppercase —
and neither strips hyphens, so the query `06 451` does not normalize-match
the header `06-451`. -/
theorem normalizer_agreement :
    (∀ s : Str, normalize_group_name s = normalize_group s) ∧
    (∀ s : Str, normalize_group_name s
      = (s.filter (fun c => !isSpaceChar c)).map upperChar) ∧
    normalize_group ("06 451".toList) ≠ normalize_group_name ("06-451".toList) :=
  ⟨fun _ => rfl, fun _ => rfl, by decide⟩

/-- C8: a raw-byte entry cached at time `T` is returned by `get_file_content`
at every instant strictly before `T + ttl` and gone at every instant strictly
after `T + ttl`. -/
theorem ttl_boundary (st : ScheduleCache) (u : String) (e : CEntry) (now : Nat)
    (hfind : st.file_content_cache.find? (fun x => x.url = u) = some e) :
    (now < e.time + st.ttl → (st.get_file_content now u).1 = some e.content) ∧
    (e.time + st.ttl < now → (st.get_file_content now u).1 = none) := by
  unfold ScheduleCache.get_file_content
  rw [hfind]
  dsimp only
  constructor
  · intro h
    rw [if_neg (by omega)]
  · intro h
    rw [if_pos (by omega)]

/-- A concrete cache exercising the TTL boundary of `ttl_boundary`: an entry
stored at tick 3 with TTL 30 is present at tick 32 and gone at tick 35. -/
theorem ttl_boundary_witness :
    ((((ScheduleCache.init 30 10).set_file_content 3 "A" [7, 7] false).get_file_content
      32 "A").1 = some [7, 7]) ∧
    ((((ScheduleCache.init 30 10).set_file_content 3 "A" [7, 7] false).get_file_content
      35 "A").1 = none) := by
  have h := ttl_boundary ((ScheduleCache.init 30 10).set_file_content 3 "A" [7, 7] false)
    "A" ⟨"A", 3, [7, 7]⟩ 32 (by decide)
  have h2 := ttl_boundary ((ScheduleCache.init 30 10).set_file_content 3 "A" [7, 7] false)
    "A" ⟨"A", 3, [7, 7]⟩ 35 (by decide)
  exact ⟨h.1 (by decide), h2.2 (by decide)⟩

/-! ### Byte-size bookkeeping lemmas -/

theorem entrySize_nil : entrySize [] = 0 := rfl

theorem entrySize_cons (e : CEntry) (l : List CEntry) :
    entrySize (e :: l) = e.content.length + entrySize l := by
  simp [entrySize]

theorem entrySize_append (a b : List CEntry) :
    entrySize (a ++ b) = entrySize a + entrySize b := by
  simp [entrySize]

theorem entrySize_nonneg (l : List CEntry) : 0 ≤ entrySize l := by
  induction l with
  | nil => simp [entrySize]
  | cons e t ih => rw [entrySize_cons]; positivity

theorem entrySize_mem_le (e : CEntry) (l : List CEntry) (h : e ∈ l) :
    (e.content.length : Int) ≤ entrySize l := by
  induction l with
  | nil => cases h
  | cons x t ih =>
    rw [entrySize_cons]
    rcases List.mem_cons.mp h with h1 | h1
    · have := entrySize_nonneg t
      subst h1
      omega
    · have := ih h1
      omega

theorem entrySize_perm (a b : List CEntry) (h : a.Perm b) :
    entrySize a = entrySize b :=
  List.Perm.sum_eq (h.map _)

/-- The filter in `_prune_storage` and partition of the total size. -/
theorem entrySize_filter_partition (p : CEntry → Bool) (l : List CEntry) :
    entrySize (l.filter p) + entrySize (l.filter (fun e => !p e)) = entrySize l := by
  induction l with
  | nil => simp [entrySize]
  | cons e t ih =>
    by_cases h : p e
    · simp [List.filter_cons, h, entrySize_cons]
      rw [← ih]; ring
    · simp [List.filter_cons, h, entrySize_cons]
      rw [← ih]; ring

/-- The `if content:` guarded subtraction loop of `_prune_storage` subtracts
exactly the removed byte total. -/
theorem foldl_guarded_sub (l : List CEntry) (s0 : Int) :
    l.foldl (fun s e => if e.content = [] then s else s - (e.content.length : Int)) s0
      = s0 - entrySize l := by
  induction l generalizing s0 with
  | nil => simp [entrySize]
  | cons e t ih =>
    rw [List.foldl_cons]
    by_cases h : e.content = []
    · rw [if_pos h, ih, entrySize_cons, h]
      simp
    · rw [if_neg h, ih, entrySize_cons]
      ring

/-- Removing the found entry of a url from a url-unique cache removes its
length from the total. -/
theorem entrySize_filter_ne (u : String) (l : List CEntry) (e : CEntry)
    (hn : keysNodup l) (hf : l.find? (fun x => x.url = u) = some e) :
    entrySize (l.filter (fun x => x.url ≠ u)) = entrySize l - e.content.length := by
  induction l with
  | nil => simp at hf
  | cons x t ih =>
    by_cases hx : x.url = u
    · rw [List.find?_cons_of_pos _ (by simpa using hx)] at hf
      injection hf with hf
      subst hf
      have ht : ∀ y ∈ t, y.url ≠ u := by
        intro y hy hyu
        have hmem : x.url ∈ t.map (fun e => e.url) := by
          rw [hx, ← hyu]
          exact List.mem_map_of_mem _ hy
        exact (List.nodup_cons.mp hn).1 hmem
      rw [List.filter_cons_of_neg (by simpa using hx),
        List.filter_eq_self.mpr (by intro a ha; simpa using ht a ha)]
      rw [entrySize_cons]; ring
    · rw [List.find?_cons_of_neg _ (by simpa using hx)] at hf
      rw [List.filter_cons_of_pos (by simpa using hx), entrySize_cons,
        ih (List.nodup_cons.mp hn).2 hf, entrySize_cons]
      ring

/-- Replacing the entry of a url in place (dict assignment on a present key)
adjusts the total by the length difference. -/
theorem entrySize_replace (u : String) (tn : Nat) (c : Bytes) (l : List CEntry)
    (e : CEntry) (hn : keysNodup l) (hf : l.find? (fun x => x.url = u) = some e) :
    entrySize (l.map (fun x => if x.url = u then ⟨u, tn, c⟩ else x))
      = entrySize l - e.content.length + c.length := by
  induction l with
  | nil => simp at hf
  | cons x t ih =>
    by_cases hx : x.url = u
    · rw [List.find?_cons_of_pos _ (by simpa using hx)] at hf
      injection hf with hf
      subst hf
      have ht : ∀ y ∈ t, y.url ≠ u := by
        intro y hy hyu
        have hmem : x.url ∈ t.map (fun e => e.url) := by
          rw [hx, ← hyu]
          exact List.mem_map_of_mem _ hy
        exact (List.nodup_cons.mp hn).1 hmem
      have hmap : t.map (fun x => if x.url = u then (⟨u, tn, c⟩ : CEntry) else x) = t := by
        rw [List.map_congr_left (g := id) ?_, List.map_id]
        intro a ha
        simp [ht a ha]
      rw [List.map_cons, if_pos hx, hmap, entrySize_cons, entrySize_cons]
      simp
      ring
    · rw [List.find?_cons_of_neg _ (by simpa using hx)] at hf
      rw [List.map_cons, if_neg hx, entrySize_cons,
        ih (List.nodup_cons.mp hn).2 hf, entrySize_cons]
      ring

/-! ### Sorting lemmas for the eviction snapshot -/

theorem insertByTime_perm (e : CEntry) (l : List CEntry) :
    (ScheduleCache.insertByTime e l).Perm (e :: l) := by
  induction l with
  | nil => exact List.Perm.refl _
  | cons x t ih =>
    unfold ScheduleCache.insertByTime
    by_cases h : x.time < e.time
    · rw [if_pos h]
      exact (ih.cons x).trans (List.Perm.swap e x t)
    · rw [if_neg h]

theorem sortByTime_perm (l : List CEntry) :
    (ScheduleCache.sortByTime l).Perm l := by
  induction l with
  | nil => exact List.Perm.refl _
  | cons x t ih =>
    unfold ScheduleCache.sortByTime
    exact (insertByTime_perm x _).trans (ih.cons x)

/-- A list already strictly sorted by time is its own sort (the snapshot
`sorted(...)` is the identity on a cache whose dict order is time order). -/
theorem sortByTime_id (l : List CEntry)
    (h : l.Pairwise (fun a b => a.time < b.time)) :
    ScheduleCache.sortByTime l = l := by
  induction l with
  | nil => rfl
  | cons x t ih =>
    unfold ScheduleCache.sortByTime
    rw [ih (List.pairwise_cons.mp h).2]
    cases t with
    | nil => rfl
    | cons y ys =>
      unfold ScheduleCache.insertByTime
      rw [if_neg]
      have := (List.pairwise_cons.mp h).1 y (by simp)
      omega

theorem insertByTime_pairwise (e : CEntry) (l : List CEntry)
    (h : l.Pairwise (fun a b => a.time ≤ b.time)) :
    (ScheduleCache.insertByTime e l).Pairwise (fun a b => a.time ≤ b.time) := by
  induction l with
  | nil => simp [ScheduleCache.insertByTime]
  | cons x t ih =>
    unfold ScheduleCache.insertByTime
    by_cases hx : x.time < e.time
    · rw [if_pos hx]
      rw [List.pairwise_cons]
      refine ⟨?_, ih (List.pairwise_cons.mp h).2⟩
      intro b hb
      have := (insertByTime_perm e t).mem_iff.mp hb
      rcases List.mem_cons.mp this with h1 | h1
      · subst h1; omega
      · exact (List.pairwise_cons.mp h).1 b h1
    · rw [if_neg hx]
      rw [List.pairwise_cons]
      refine ⟨?_, h⟩
      intro b hb
      rcases List.mem_cons.mp hb with h1 | h1
      · subst h1; omega
      · have := (List.pairwise_cons.mp h).1 b h1
        omega

theorem sortByTime_pairwise (l : List CEntry) :
    (ScheduleCache.sortByTime l).Pairwise (fun a b => a.time ≤ b.time) := by
  induction l with
  | nil => simp [ScheduleCache.sortByTime]
  | cons x t ih =>
    unfold ScheduleCache.sortByTime
    exact insertByTime_pairwise x _ ih

/-- An entry strictly newer than every other entry comes last in the sorted
snapshot. -/
theorem sortByTime_last (l : List CEntry) (big : CEntry) (hmem : big ∈ l)
    (hmax : ∀ x ∈ l, x ≠ big → x.time < big.time) :
    ∃ pre, ScheduleCache.sortByTime l = pre ++ [big] := by
  rcases List.eq_nil_or_concat (ScheduleCache.sortByTime l) with h | ⟨pre, lst, h⟩
  · have := (sortByTime_perm l).mem_iff.mpr hmem
    rw [h] at this
    cases this
  · rw [List.concat_eq_append] at h
    refine ⟨pre, ?_⟩
    rw [h]
    by_cases hlst : lst = big
    · rw [hlst]
    · exfalso
      have hbig : big ∈ pre ++ [lst] := by
        rw [← h]; exact (sortByTime_perm l).mem_iff.mpr hmem
      have hbigpre : big ∈ pre := by
        rcases List.mem_append.mp hbig with h1 | h1
        · exact h1
        · simp at h1; exact absurd h1.symm hlst
      have hle : big.time ≤ lst.time := by
        have hp := sortByTime_pairwise l
        rw [h] at hp
        exact (List.pairwise_append.mp hp).2.2 big hbigpre lst (by simp)
      have hlstmem : lst ∈ l := (sortByTime_perm l).mem_iff.mp (by rw [h]; simp)
      have := hmax lst hlstmem hlst
      omega

/-! ### fitSuffix: what oldest-first eviction leaves -/

theorem fitSuffix_of_le (M : Nat) (l : List CEntry)
    (h : entrySize l ≤ (M : Int)) : fitSuffix M l = l := by
  cases l with
  | nil => rfl
  | cons e t => unfold fitSuffix; rw [if_pos h]

theorem fitSuffix_cons_of_gt (M : Nat) (e : CEntry) (t : List CEntry)
    (h : ¬ entrySize (e :: t) ≤ (M : Int)) :
    fitSuffix M (e :: t) = fitSuffix M t := by
  conv_lhs => unfold fitSuffix
  rw [if_neg h]

theorem fitSuffix_suffix (M : Nat) (l : List CEntry) :
    (fitSuffix M l).IsSuffix l := by
  induction l with
  | nil => exact List.suffix_refl _
  | cons e t ih =>
    unfold fitSuffix
    by_cases h : entrySize (e :: t) ≤ (M : Int)
    · rw [if_pos h]
    · rw [if_neg h]
      exact ih.trans (List.suffix_cons e t)

theorem entrySize_fitSuffix_le (M : Nat) (l : List CEntry) :
    entrySize (fitSuffix M l) ≤ (M : Int) := by
  induction l with
  | nil =>
    show entrySize [] ≤ (M : Int)
    rw [entrySize_nil]
    positivity
  | cons e t ih =>
    unfold fitSuffix
    by_cases h : entrySize (e :: t) ≤ (M : Int)
    · rw [if_pos h]; exact h
    · rw [if_neg h]; exact ih

/-- Evicting from survivors plus a new entry is evicting from the whole
insertion history plus the new entry: entries already evicted would only
overflow further. -/
theorem fitSuffix_append_one (M : Nat) (l : List CEntry) (n : CEntry) :
    fitSuffix M (fitSuffix M l ++ [n]) = fitSuffix M (l ++ [n]) := by
  induction l with
  | nil => rfl
  | cons e t ih =>
    by_cases h : entrySize (e :: t) ≤ (M : Int)
    · rw [fitSuffix_of_le M _ h]
    · have hgt : ¬ entrySize ((e :: t) ++ [n]) ≤ (M : Int) := by
        rw [entrySize_append] at *
        have h1 := entrySize_nonneg [n]
        omega
      rw [fitSuffix_cons_of_gt M e t h, ih, List.cons_append,
        fitSuffix_cons_of_gt M e (t ++ [n]) (by rw [List.cons_append] at hgt; exact hgt)]

/-! ### The eviction loop -/

theorem evictGo_max (M : Nat) : ∀ (iter : List CEntry) (st : ScheduleCache),
    (ScheduleCache.evictGo M iter st).max_cache_size = st.max_cache_size := by
  intro iter
  induction iter with
  | nil => intro st; rfl
  | cons e t ih =>
    intro st
    unfold ScheduleCache.evictGo
    by_cases h : (M : Int) < st.current_cache_size
    · rw [if_pos h, ih]
    · rw [if_neg h]

theorem evictGo_ttl (M : Nat) : ∀ (iter : List CEntry) (st : ScheduleCache),
    (ScheduleCache.evictGo M iter st).ttl = st.ttl := by
  intro iter
  induction iter with
  | nil => intro st; rfl
  | cons e t ih =>
    intro st
    unfold ScheduleCache.evictGo
    by_cases h : (M : Int) < st.current_cache_size
    · rw [if_pos h, ih]
    · rw [if_neg h]

/-- When the eviction loop walks the cache in its own dict order (a
time-sorted cache), it leaves exactly the longest budget-fitting suffix. -/
theorem evictGo_fit (M : Nat) : ∀ (l : List CEntry) (st : ScheduleCache),
    st.file_content_cache = l → keysNodup l →
    st.current_cache_size = entrySize l →
    (ScheduleCache.evictGo M l st).file_content_cache = fitSuffix M l ∧
    (ScheduleCache.evictGo M l st).current_cache_size
      = entrySize (fitSuffix M l) := by
  intro l
  induction l with
  | nil =>
    intro st hc _ hs
    exact ⟨hc, hs⟩
  | cons e t ih =>
    intro st hc hn hs
    unfold ScheduleCache.evictGo
    by_cases h : (M : Int) < st.current_cache_size
    · rw [if_pos h]
      have hfilter : st.file_content_cache.filter (fun x => x.url ≠ e.url) = t := by
        rw [hc, List.filter_cons_of_neg (by simp)]
        apply List.filter_eq_self.mpr
        intro a ha
        have hne : a.url ≠ e.url := by
          intro heq
          have hmem2 : e.url ∈ List.map (fun x => x.url) t := by
            rw [← heq]
            exact List.mem_map_of_mem _ ha
          exact (List.nodup_cons.mp hn).1 hmem2
        simpa using hne
      have hgt : ¬ entrySize (e :: t) ≤ (M : Int) := by rw [← hs]; omega
      rw [fitSuffix_cons_of_gt M e t hgt]
      apply ih
      · exact hfilter
      · exact (List.nodup_cons.mp hn).2
      · show st.current_cache_size - e.content.length = entrySize t
        rw [hs, entrySize_cons]
        ring
    · rw [if_neg h]
      have hle : entrySize (e :: t) ≤ (M : Int) := by rw [← hs]; omega
      rw [fitSuffix_of_le M _ hle]
      exact ⟨hc, hs⟩

/-- The eviction loop keeps the size counter equal to the surviving bytes,
whatever the iteration order (a permutation of the cache). -/
theorem evictGo_consistent (M : Nat) : ∀ (iter : List CEntry) (st : ScheduleCache),
    st.file_content_cache.Perm iter → keysNodup iter →
    st.current_cache_size = entrySize iter →
    ∃ rest, (ScheduleCache.evictGo M iter st).file_content_cache.Perm rest ∧
      (ScheduleCache.evictGo M iter st).current_cache_size = entrySize rest := by
  intro iter
  induction iter with
  | nil =>
    intro st hp _ hs
    exact ⟨[], hp, hs⟩
  | cons e t ih =>
    intro st hp hn hs
    unfold ScheduleCache.evictGo
    by_cases h : (M : Int) < st.current_cache_size
    · rw [if_pos h]
      apply ih
      · have h1 : st.file_content_cache.filter (fun x => x.url ≠ e.url)
            |>.Perm ((e :: t).filter (fun x => x.url ≠ e.url)) := hp.filter _
        have h2 : (e :: t).filter (fun x => x.url ≠ e.url) = t := by
          rw [List.filter_cons_of_neg (by simp)]
          apply List.filter_eq_self.mpr
          intro a ha
          have hne : a.url ≠ e.url := by
            intro heq
            have hmem2 : e.url ∈ List.map (fun x => x.url) t := by
              rw [← heq]
              exact List.mem_map_of_mem _ ha
            exact (List.nodup_cons.mp hn).1 hmem2
          simpa using hne
        rw [h2] at h1
        exact h1
      · exact (List.nodup_cons.mp hn).2
      · show st.current_cache_size - e.content.length = entrySize t
        rw [hs, entrySize_cons]
        ring
    · rw [if_neg h]
      exact ⟨e :: t, hp, hs⟩

/-- When an entry alone overflows the budget and sits last in the iteration
order, the eviction loop empties the cache. -/
theorem evictGo_clears (M : Nat) (big : CEntry)
    (hbig : (M : Int) < big.content.length) :
    ∀ (pre : List CEntry) (st : ScheduleCache),
    st.file_content_cache.Perm (pre ++ [big]) → keysNodup (pre ++ [big]) →
    st.current_cache_size = entrySize (pre ++ [big]) →
    (ScheduleCache.evictGo M (pre ++ [big]) st).file_content_cache = [] := by
  intro pre
  induction pre with
  | nil =>
    intro st hp hn hs
    have hsz : (M : Int) < st.current_cache_size := by
      rw [hs, entrySize_append, entrySize_nil, entrySize_cons, entrySize_nil]
      omega
    show (ScheduleCache.evictGo M ([] ++ [big]) st).file_content_cache = []
    rw [List.nil_append]
    unfold ScheduleCache.evictGo
    rw [if_pos hsz]
    unfold ScheduleCache.evictGo
    have hcache : st.file_content_cache = [big] := by
      rw [List.nil_append] at hp
      exact List.perm_singleton.mp hp
    show (st.file_content_cache.filter (fun x => x.url ≠ big.url)) = []
    rw [hcache, List.filter_cons_of_neg (by simp), List.filter_nil]
  | cons e pre' ih =>
    intro st hp hn hs
    have hmem : big ∈ e :: pre' ++ [big] := by simp
    have hsz : (M : Int) < st.current_cache_size := by
      rw [hs]
      have := entrySize_mem_le big _ hmem
      omega
    show (ScheduleCache.evictGo M ((e :: pre') ++ [big]) st).file_content_cache = []
    rw [List.cons_append]
    unfold ScheduleCache.evictGo
    rw [if_pos hsz]
    apply ih
    · have h1 := hp.filter (fun x => x.url ≠ e.url)
      have h2 : (e :: (pre' ++ [big])).filter (fun x => x.url ≠ e.url)
          = pre' ++ [big] := by
        rw [List.filter_cons_of_neg (by simp)]
        apply List.filter_eq_self.mpr
        intro a ha
        have hne : a.url ≠ e.url := by
          intro heq
          have hn2 : keysNodup (e :: (pre' ++ [big])) := by
            rw [List.cons_append] at hn; exact hn
          have hmem2 : e.url ∈ List.map (fun x => x.url) (pre' ++ [big]) := by
            rw [← heq]
            exact List.mem_map_of_mem _ ha
          exact (List.nodup_cons.mp hn2).1 hmem2
        simpa using hne
      rw [List.cons_append] at h1
      rw [h2] at h1
      exact h1
    · have := hn
      rw [List.cons_append] at this
      exact (List.nodup_cons.mp this).2
    · show st.current_cache_size - e.content.length = entrySize (pre' ++ [big])
      rw [hs, List.cons_append, entrySize_cons]
      ring

/-! ### Size-counter consistency of each operation -/

/-- `set_file_content` on a url not yet cached, with the let chain resolved. -/
theorem set_file_content_none (st : ScheduleCache) (now : Nat) (u : String)
    (c : Bytes) (p : Bool)
    (hf : st.file_content_cache.find? (fun e => e.url = u) = none) :
    st.set_file_content now u c p =
      (fun st3 : ScheduleCache =>
        if p then { st3 with disk := ScheduleCache.dictSetDisk st3.disk u c }
        else st3)
      (ScheduleCache.evict_oldest_if_needed
        { st with
          file_content_cache :=
            ScheduleCache.dictSetContent st.file_content_cache u now c,
          current_cache_size := st.current_cache_size + c.length }) := by
  unfold ScheduleCache.set_file_content
  rw [hf]

/-- `set_file_content` on an already-cached url, with the let chain resolved. -/
theorem set_file_content_some (st : ScheduleCache) (now : Nat) (u : String)
    (c : Bytes) (p : Bool) (e : CEntry)
    (hf : st.file_content_cache.find? (fun x => x.url = u) = some e) :
    st.set_file_content now u c p =
      (fun st3 : ScheduleCache =>
        if p then { st3 with disk := ScheduleCache.dictSetDisk st3.disk u c }
        else st3)
      (ScheduleCache.evict_oldest_if_needed
        { st with
          file_content_cache :=
            ScheduleCache.dictSetContent st.file_content_cache u now c,
          current_cache_size :=
            st.current_cache_size - e.content.length + c.length }) := by
  unfold ScheduleCache.set_file_content
  rw [hf]

/-- The persist branch never touches the raw-byte cache or the counter. -/
theorem sizeConsistent_persist (st3 : ScheduleCache) (p : Bool) (u : String)
    (c : Bytes) (h : sizeConsistent st3) :
    sizeConsistent (if p then
      { st3 with disk := ScheduleCache.dictSetDisk st3.disk u c } else st3) := by
  by_cases hp : p
  · rw [if_pos hp]; exact h
  · rw [if_neg hp]; exact h

/-- Eviction keeps the counter equal to the surviving bytes. -/
theorem evict_consistent (st : ScheduleCache) (hc : sizeConsistent st)
    (hn : keysNodup st.file_content_cache) :
    sizeConsistent st.evict_oldest_if_needed := by
  unfold ScheduleCache.evict_oldest_if_needed
  by_cases h : st.current_cache_size ≤ (st.max_cache_size : Int)
  · rw [if_pos h]; exact hc
  · rw [if_neg h]
    obtain ⟨rest, hp, hs⟩ := evictGo_consistent st.max_cache_size
      (ScheduleCache.sortByTime st.file_content_cache) st
      (sortByTime_perm st.file_content_cache).symm
      (((sortByTime_perm st.file_content_cache).map
        (fun e : CEntry => e.url)).nodup_iff.mpr hn)
      (by rw [hc]; exact entrySize_perm _ _ (sortByTime_perm _).symm)
    unfold sizeConsistent
    rw [hs, entrySize_perm _ _ hp]

/-- Dict assignment on a fresh url appends. -/
theorem dictSetContent_fresh (l : List CEntry) (u : String) (t : Nat) (c : Bytes)
    (h : ∀ e ∈ l, e.url ≠ u) :
    ScheduleCache.dictSetContent l u t c = l ++ [⟨u, t, c⟩] := by
  unfold ScheduleCache.dictSetContent
  rw [if_neg]
  intro hany
  obtain ⟨x, hx, hxu⟩ := List.any_eq_true.mp hany
  exact h x hx (by simpa using hxu)

/-- Dict assignment on a present url updates in place. -/
theorem dictSetContent_present (l : List CEntry) (u : String) (t : Nat)
    (c : Bytes) (e : CEntry) (he : e ∈ l) (heu : e.url = u) :
    ScheduleCache.dictSetContent l u t c
      = l.map (fun x => if x.url = u then ⟨u, t, c⟩ else x) := by
  unfold ScheduleCache.dictSetContent
  rw [if_pos]
  exact List.any_eq_true.mpr ⟨e, he, by simpa using heu⟩

/-- In-place dict assignment keeps the key sequence. -/
theorem keys_replace (l : List CEntry) (u : String) (t : Nat) (c : Bytes) :
    (l.map (fun x => if x.url = u then (⟨u, t, c⟩ : CEntry) else x)).map
      (fun e => e.url) = l.map (fun e => e.url) := by
  rw [List.map_map]
  apply List.map_congr_left
  intro x _
  by_cases hx : x.url = u
  · simp [hx]
  · simp [hx]

/-- `set_file_content` keeps the counter equal to the cached bytes. -/
theorem set_consistent (st : ScheduleCache) (now : Nat) (u : String) (c : Bytes)
    (p : Bool) (hc : sizeConsistent st) (hn : keysNodup st.file_content_cache) :
    sizeConsistent (st.set_file_content now u c p) := by
  cases hf : st.file_content_cache.find? (fun x => x.url = u) with
  | none =>
    rw [set_file_content_none st now u c p hf]
    apply sizeConsistent_persist
    have hfresh : ∀ x ∈ st.file_content_cache, x.url ≠ u := by
      intro x hx
      simpa using List.find?_eq_none.mp hf x hx
    apply evict_consistent
    · show st.current_cache_size + c.length
        = entrySize (ScheduleCache.dictSetContent st.file_content_cache u now c)
      rw [dictSetContent_fresh _ _ _ _ hfresh, entrySize_append, hc,
        entrySize_cons, entrySize_nil]
      ring
    · show keysNodup (ScheduleCache.dictSetContent st.file_content_cache u now c)
      rw [dictSetContent_fresh _ _ _ _ hfresh]
      unfold keysNodup
      rw [List.map_append]
      apply List.Nodup.append hn (by simp)
      intro a ha hb
      simp only [List.map_cons, List.map_nil, List.mem_singleton] at hb
      obtain ⟨x, hx, hxa⟩ := List.mem_map.mp ha
      exact hfresh x hx (by rw [← hxa] at hb; exact hb)
  | some e =>
    have hmem : e ∈ st.file_content_cache := List.mem_of_find?_eq_some hf
    have heu : e.url = u := by simpa using List.find?_some hf
    rw [set_file_content_some st now u c p e hf]
    apply sizeConsistent_persist
    apply evict_consistent
    · show st.current_cache_size - e.content.length + c.length
        = entrySize (ScheduleCache.dictSetContent st.file_content_cache u now c)
      rw [dictSetContent_present _ _ _ _ e hmem heu,
        entrySize_replace u now c _ e hn hf, hc]
    · show keysNodup (ScheduleCache.dictSetContent st.file_content_cache u now c)
      rw [dictSetContent_present _ _ _ _ e hmem heu]
      unfold keysNodup
      rw [keys_replace]
      exact hn

/-- Expiry-on-read keeps the counter equal to the cached bytes. -/
theorem get_consistent (st : ScheduleCache) (now : Nat) (u : String)
    (hc : sizeConsistent st) (hn : keysNodup st.file_content_cache) :
    sizeConsistent (st.get_file_content now u).2 := by
  unfold ScheduleCache.get_file_content
  cases hf : st.file_content_cache.find? (fun e => e.url = u) with
  | none => exact hc
  | some e =>
    dsimp only
    by_cases h : st.ttl < now - e.time
    · rw [if_pos h]
      show st.current_cache_size - e.content.length
        = entrySize (st.file_content_cache.filter (fun x => x.url ≠ u))
      rw [entrySize_filter_ne u _ e hn hf, hc]
    · rw [if_neg h]
      exact hc

/-- Listing-change pruning keeps the counter equal to the cached bytes. -/
theorem prune_consistent (st : ScheduleCache) (active : List String)
    (hc : sizeConsistent st) : sizeConsistent (st.prune_storage active) := by
  unfold ScheduleCache.prune_storage
  show (st.file_content_cache.filter (fun e => !active.contains e.url)).foldl
      (fun s e => if e.content = [] then s else s - (e.content.length : Int))
      st.current_cache_size
    = entrySize (st.file_content_cache.filter (fun e => active.contains e.url))
  rw [foldl_guarded_sub, hc]
  have := entrySize_filter_partition (fun e => active.contains e.url)
    st.file_content_cache
  omega

/-- `update_file_list` keeps the counter equal to the cached bytes. -/
theorem update_consistent (st : ScheduleCache) (now : Nat)
    (files : List ScheduleFile) (hc : sizeConsistent st) :
    sizeConsistent (st.update_file_list now files).2 := by
  unfold ScheduleCache.update_file_list
  by_cases h : some (files.map (fun f => (f.url, f.title))) ≠ st.file_list_signature
  · rw [if_pos h]
    exact prune_consistent _ _ hc
  · rw [if_neg h]
    exact hc

/-- C9 (amended): insertion, expiry-on-read, budget eviction and
listing-change pruning keep the byte-size counter equal to the sum of cached
entry lengths; `clear()` empties the raw-byte cache but leaves the counter
unchanged, so it preserves the equality only when the counter was zero. -/
theorem size_counter_ops (st : ScheduleCache) (now : Nat) (u : String)
    (c : Bytes) (p : Bool) (files : List ScheduleFile)
    (hc : sizeConsistent st) (hn : keysNodup st.file_content_cache) :
    sizeConsistent (st.set_file_content now u c p) ∧
    sizeConsistent (st.get_file_content now u).2 ∧
    sizeConsistent (st.update_file_list now files).2 ∧
    (st.clear.file_content_cache = [] ∧
      st.clear.current_cache_size = st.current_cache_size) :=
  ⟨set_consistent st now u c p hc hn, get_consistent st now u hc hn,
    update_consistent st now files hc, rfl, rfl⟩

/-- The operations of `size_counter_ops` at a concrete loaded cache. -/
theorem size_counter_ops_witness :
    sizeConsistent (exLoaded.set_file_content 3 "A" [3] false) ∧
    sizeConsistent (exLoaded.get_file_content 3 "A").2 ∧
    sizeConsistent (exLoaded.update_file_list 3 exFiles).2 ∧
    (exLoaded.clear.file_content_cache = [] ∧
      exLoaded.clear.current_cache_size = exLoaded.current_cache_size) :=
  size_counter_ops exLoaded 3 "A" [3] false exFiles
    (by unfold sizeConsistent; decide) (by unfold keysNodup; decide)

/-- `clear()` on a loaded cache breaks the counter/contents equality: the
raw-byte cache is emptied but nine bytes stay on the counter. -/
theorem size_counter_clear_cex :
    exLoaded.clear.file_content_cache = [] ∧
    exLoaded.clear.current_cache_size
      ≠ entrySize exLoaded.clear.file_content_cache := by
  exact ⟨rfl, by decide⟩

/-- A cache whose raw-byte store is empty answers no `get_file_content`. -/
theorem get_on_empty (st : ScheduleCache) (now : Nat) (u : String)
    (h : st.file_content_cache = []) :
    (st.get_file_content now u).1 = none := by
  unfold ScheduleCache.get_file_content
  rw [h]
  rfl

/-- Dict assignment always leaves the assigned pair in the disk store. -/
theorem mem_dictSetDisk (l : List (String × Bytes)) (u : String) (c : Bytes) :
    (u, c) ∈ ScheduleCache.dictSetDisk l u c := by
  unfold ScheduleCache.dictSetDisk
  by_cases h : l.any (fun e => e.1 = u)
  · rw [if_pos h]
    obtain ⟨x, hx, hxu⟩ := List.any_eq_true.mp h
    apply List.mem_map.mpr
    exact ⟨x, hx, by rw [if_pos (by simpa using hxu)]⟩
  · rw [if_neg h]
    simp

/-- The persist branch never touches the raw-byte cache. -/
theorem persist_cache (st3 : ScheduleCache) (p : Bool) (u : String) (c : Bytes) :
    (if p then { st3 with disk := ScheduleCache.dictSetDisk st3.disk u c }
      else st3).file_content_cache = st3.file_content_cache := by
  by_cases hp : p
  · rw [if_pos hp]
  · rw [if_neg hp]

/-- C10: a `set_file_content` whose content alone exceeds the byte budget
leaves the raw-byte cache completely empty — the new entry is evicted along
with every older one — so an immediate read misses, while with
`persist=True` the bytes still reach the disk store. -/
theorem oversized_set_clears (st : ScheduleCache) (now : Nat) (u : String)
    (c : Bytes) (p : Bool) (now2 : Nat)
    (hc : sizeConsistent st) (hn : keysNodup st.file_content_cache)
    (htimes : ∀ e ∈ st.file_content_cache, e.time < now)
    (hbig : (st.max_cache_size : Int) < c.length) :
    (st.set_file_content now u c p).file_content_cache = [] ∧
    ((st.set_file_content now u c p).get_file_content now2 u).1 = none ∧
    (p = true → (u, c) ∈ (st.set_file_content now u c p).disk) := by
  have main : ∀ l2 : List CEntry,
      ScheduleCache.dictSetContent st.file_content_cache u now c = l2 →
      (⟨u, now, c⟩ : CEntry) ∈ l2 →
      (∀ x ∈ l2, x ≠ ⟨u, now, c⟩ → x.time < now) →
      keysNodup l2 →
      ∀ s2 : Int, s2 = entrySize l2 →
      (ScheduleCache.evict_oldest_if_needed
        { st with file_content_cache := l2,
                  current_cache_size := s2 }).file_content_cache = [] := by
    intro l2 hl2 hmem hmax hnodup s2 hs2
    unfold ScheduleCache.evict_oldest_if_needed
    rw [if_neg ?hgt]
    case hgt =>
      show ¬ s2 ≤ (st.max_cache_size : Int)
      rw [hs2]
      have := entrySize_mem_le _ _ hmem
      simp only at this
      omega
    obtain ⟨pre, hsort⟩ := sortByTime_last l2 ⟨u, now, c⟩ hmem hmax
    show (ScheduleCache.evictGo st.max_cache_size
      (ScheduleCache.sortByTime l2) _).file_content_cache = []
    rw [hsort]
    apply evictGo_clears st.max_cache_size ⟨u, now, c⟩ hbig pre
    · show l2.Perm (pre ++ [⟨u, now, c⟩])
      rw [← hsort]
      exact (sortByTime_perm l2).symm
    · show keysNodup (pre ++ [⟨u, now, c⟩])
      rw [← hsort]
      exact (((sortByTime_perm l2).map (fun e : CEntry => e.url)).nodup_iff.mpr
        hnodup)
    · show s2 = entrySize (pre ++ [⟨u, now, c⟩])
      rw [← hsort, hs2]
      exact entrySize_perm _ _ (sortByTime_perm l2).symm
  have hempty : (st.set_file_content now u c p).file_content_cache = [] := by
    cases hf : st.file_content_cache.find? (fun x => x.url = u) with
    | none =>
      have hfresh : ∀ x ∈ st.file_content_cache, x.url ≠ u := by
        intro x hx
        simpa using List.find?_eq_none.mp hf x hx
      rw [set_file_content_none st now u c p hf]
      beta_reduce
      rw [persist_cache]
      have h3 := main (st.file_content_cache ++ [⟨u, now, c⟩])
        (dictSetContent_fresh _ _ _ _ hfresh) (by simp) ?hmax ?hnd
        (st.current_cache_size + c.length) ?hsz
      case hmax =>
        intro x hx hne
        rcases List.mem_append.mp hx with h1 | h1
        · exact htimes x h1
        · simp at h1; exact absurd h1 hne
      case hnd =>
        unfold keysNodup
        rw [List.map_append]
        apply List.Nodup.append hn (by simp)
        intro a ha hb
        simp only [List.map_cons, List.map_nil, List.mem_singleton] at hb
        obtain ⟨x, hx, hxa⟩ := List.mem_map.mp ha
        exact hfresh x hx (by rw [← hxa] at hb; exact hb)
      case hsz =>
        rw [entrySize_append, hc, entrySize_cons, entrySize_nil]
        ring
      rw [dictSetContent_fresh _ _ _ _ hfresh]
      exact h3
    | some e =>
      have hmem : e ∈ st.file_content_cache := List.mem_of_find?_eq_some hf
      have heu : e.url = u := by simpa using List.find?_some hf
      have hrepl := dictSetContent_present st.file_content_cache u now c e hmem heu
      rw [set_file_content_some st now u c p e hf]
      beta_reduce
      rw [persist_cache]
      have h3 := main
        (st.file_content_cache.map (fun x => if x.url = u then ⟨u, now, c⟩ else x))
        hrepl ?hmem2 ?hmax ?hnd
        (st.current_cache_size - e.content.length + c.length) ?hsz
      case hmem2 =>
        apply List.mem_map.mpr
        exact ⟨e, hmem, by rw [if_pos heu]⟩
      case hmax =>
        intro x hx hne
        obtain ⟨y, hy, hyx⟩ := List.mem_map.mp hx
        by_cases hyu : y.url = u
        · rw [if_pos hyu] at hyx
          exact absurd hyx.symm hne
        · rw [if_neg hyu] at hyx
          rw [← hyx]
          exact htimes y hy
      case hnd =>
        unfold keysNodup
        rw [keys_replace]
        exact hn
      case hsz =>
        rw [entrySize_replace u now c _ e hn hf, hc]
      rw [hrepl]
      exact h3
  refine ⟨hempty, get_on_empty _ now2 u hempty, ?_⟩
  intro hp
  cases hfp : st.file_content_cache.find? (fun x => x.url = u) with
  | none =>
    rw [set_file_content_none st now u c p hfp]
    beta_reduce
    rw [if_pos hp]
    show (u, c) ∈ ScheduleCache.dictSetDisk _ u c
    exact mem_dictSetDisk _ u c
  | some e =>
    rw [set_file_content_some st now u c p e hfp]
    beta_reduce
    rw [if_pos hp]
    show (u, c) ∈ ScheduleCache.dictSetDisk _ u c
    exact mem_dictSetDisk _ u c

/-- An 11-byte write into a 10-byte budget empties the cache while the disk
copy survives. -/
theorem oversized_set_clears_witness :
    (exLoaded.set_file_content 5 "D" (List.replicate 11 7) true).file_content_cache
      = [] ∧
    ((exLoaded.set_file_content 5 "D"
      (List.replicate 11 7) true).get_file_content 5 "D").1 = none ∧
    (true = true → ("D", List.replicate 11 7)
      ∈ (exLoaded.set_file_content 5 "D" (List.replicate 11 7) true).disk) :=
  oversized_set_clears exLoaded 5 "D" (List.replicate 11 7) true 5
    (by unfold sizeConsistent; decide) (by unfold keysNodup; decide)
    (by decide) (by decide)

/-- The shortcut filter of `update_file_list`: every entry surviving the
`groups_to_remove` deletion points at an active url. -/
theorem glc_prune_sound (active : List String) (glc : List GEntry) :
    ∀ g ∈ glc.filter (fun x =>
      !((glc.filter (fun y => !active.contains y.url)).map
        (fun y => y.key)).contains x.key),
      active.contains g.url = true := by
  intro g hg
  rw [List.mem_filter] at hg
  obtain ⟨h1, h2⟩ := hg
  by_contra hne
  have hmem : g ∈ glc.filter (fun y => !active.contains y.url) := by
    rw [List.mem_filter]
    refine ⟨h1, ?_⟩
    rw [Bool.not_eq_true] at hne
    rw [hne]
    rfl
  have hkey : g.key ∈ (glc.filter (fun y => !active.contains y.url)).map
      (fun y => y.key) := List.mem_map_of_mem _ hmem
  have h3 : ((glc.filter (fun y => !active.contains y.url)).map
      (fun y => y.key)).contains g.key = true := List.elem_eq_true_of_mem hkey
  rw [h3] at h2
  cases h2

/-- C2 (amended): when `update_file_list` detects a listing change — the
`(url, title)` signature of the new files differs from the stored one — every
group-location shortcut entry left in the cache points at a url of the new
listing; a call with an unchanged signature leaves the shortcut cache
untouched, dangling entries included. -/
theorem update_prunes_shortcuts (st : ScheduleCache) (now : Nat)
    (files : List ScheduleFile)
    (hchanged : some (files.map (fun f => (f.url, f.title)))
      ≠ st.file_list_signature) :
    ∀ g ∈ (st.update_file_list now files).2.group_location_cache,
      g.url ∈ files.map (fun f => f.url) := by
  unfold ScheduleCache.update_file_list
  rw [if_pos hchanged]
  intro g hg
  dsimp only at hg
  have := glc_prune_sound (files.map (fun f => f.url)) _ g hg
  exact List.mem_of_elem_eq_true this

/-- The pruning of `update_prunes_shortcuts` at a concrete cache: after a
changed listing `[T2, f1]`, the surviving shortcut for `f1` indeed points
into the listing. -/
theorem update_prunes_shortcuts_witness :
    ("f1" : String) ∈ ([⟨"T2", "f1"⟩] : List ScheduleFile).map
      (fun f => f.url) :=
  update_prunes_shortcuts exListed 2 [⟨"T2", "f1"⟩] (by decide)
    ⟨"G1".toList, 1, "f1", "S", "G1".toList⟩ (by decide)

/-- The claim as frozen is false without the signature-change condition: a
shortcut stored after the last listing update may point at a url outside the
listing, and a repeat `update_file_list` with the unchanged listing leaves it
in place. -/
theorem update_prunes_shortcuts_cex :
    ("u2" ∉ exFiles.map (fun f => f.url)) ∧
    (exDangling.update_file_list 2 exFiles).2.group_location_cache.any
      (fun g => g.url = "u2") = true := by
  constructor
  · decide
  · decide

/-! ### Block segmentation without title lines -/

theorem dropWhile_idem (p : Char → Bool) (l : List Char) :
    (l.dropWhile p).dropWhile p = l.dropWhile p := by
  induction l with
  | nil => rfl
  | cons c rest ih =>
    by_cases h : p c
    · simp only [List.dropWhile_cons, h, if_true]
      exact ih
    · simp [List.dropWhile_cons, h]

theorem dropWhile_eq_self_initial (p : Char → Bool) (l l' : List Char)
    (hl : l.dropWhile p = l) (hp : l' <+: l) : l'.dropWhile p = l' := by
  cases l' with
  | nil => rfl
  | cons c t =>
    cases l with
    | nil =>
      have := hp.length_le
      simp at this
    | cons d t2 =>
      have hcd : c = d := (List.cons_prefix_cons.mp hp).1
      have hd : ¬ p d := by
        intro hpd
        rw [List.dropWhile_cons, if_pos hpd] at hl
        have := (List.dropWhile_sublist (l := t2) p).length_le
        rw [hl] at this
        simp at this
      simp [List.dropWhile_cons, hcd, hd]

/-- `str.strip()` is idempotent. -/
theorem strip_strip (s : Str) : strip (strip s) = strip s := by
  unfold strip
  have hae : (s.dropWhile isSpaceChar).dropWhile isSpaceChar
      = s.dropWhile isSpaceChar := dropWhile_idem isSpaceChar s
  have hpre : (((s.dropWhile isSpaceChar).reverse.dropWhile
      isSpaceChar).reverse) <+: s.dropWhile isSpaceChar := by
    have h1 := List.dropWhile_suffix (l := (s.dropWhile isSpaceChar).reverse)
      isSpaceChar
    have h2 := List.reverse_prefix.mpr h1
    rwa [List.reverse_reverse] at h2
  rw [dropWhile_eq_self_initial isSpaceChar _ _ hae hpre,
    List.reverse_reverse, dropWhile_idem]

theorem linesOf_stripped (content : Str) :
    ∀ l ∈ linesOf content, strip l = l := by
  intro l hl
  obtain ⟨x, _, hx⟩ := List.mem_map.mp hl
  rw [← hx]
  exact strip_strip x

/-- A blank line leaves the loop state untouched. -/
theorem mbStep_blank (st : MBState) (line : Str) (h : strip line = []) :
    mbStep st line = st := by
  unfold mbStep
  rw [h]
  rfl

/-- Running the loop from an open block over classified-as-detail lines: with
no title line and at most one week line (none if the block already has one),
every non-blank line lands in the details of the one open block. -/
theorem fold_details : ∀ (ls : List Str) (first : Str) (ds : List Str)
    (hw : Bool),
    (∀ l ∈ ls, strip l = l) →
    (∀ l ∈ ls, l ≠ [] → is_title l = false) →
    ((ls.filter (fun l => l ≠ [])).countP contains_week
      ≤ if hw then 0 else 1) →
    ∃ hw2, ls.foldl mbStep ⟨[], some first, ds, hw⟩
      = ⟨[], some first, ds ++ ls.filter (fun l => l ≠ []), hw2⟩ := by
  intro ls
  induction ls with
  | nil =>
    intro first ds hw _ _ _
    exact ⟨hw, by simp⟩
  | cons l rest ih =>
    intro first ds hw hstripped htitle hcount
    rw [List.foldl_cons]
    have hsl : strip l = l := hstripped l (by simp)
    by_cases hblank : l = []
    · have hstep : mbStep ⟨[], some first, ds, hw⟩ l = ⟨[], some first, ds, hw⟩ :=
        mbStep_blank _ l (by rw [hsl, hblank])
      rw [hstep, List.filter_cons_of_neg (by simp [hblank])] at *
      exact ih first ds hw (fun x hx => hstripped x (by simp [hx]))
        (fun x hx => htitle x (by simp [hx])) hcount
    · have hft : is_title l = false := htitle l (by simp) hblank
      rw [List.filter_cons_of_pos (by simpa using hblank)] at hcount ⊢
      by_cases hcw : contains_week l = true
      · have hwfalse : hw = false := by
          cases hhw : hw
          · rfl
          · exfalso
            rw [hhw, if_pos rfl] at hcount
            rw [List.countP_cons, hcw, if_pos rfl] at hcount
            omega
        subst hwfalse
        have hstep : mbStep ⟨[], some first, ds, false⟩ l
            = ⟨[], some first, ds ++ [l], true⟩ := by
          simp [mbStep, hsl, hblank, hft, hcw]
        rw [hstep]
        obtain ⟨hw2, hres⟩ := ih first (ds ++ [l]) true
          (fun x hx => hstripped x (by simp [hx]))
          (fun x hx => htitle x (by simp [hx]))
          (by
            rw [if_neg (by simp)] at hcount
            rw [List.countP_cons, hcw, if_pos rfl] at hcount
            rw [if_pos rfl]
            omega)
        refine ⟨hw2, ?_⟩
        rw [hres, List.append_assoc]
        rfl
      · rw [Bool.not_eq_true] at hcw
        have hstep : mbStep ⟨[], some first, ds, hw⟩ l
            = ⟨[], some first, ds ++ [l], hw⟩ := by
          simp [mbStep, hsl, hblank, hft, hcw]
        rw [hstep]
        obtain ⟨hw2, hres⟩ := ih first (ds ++ [l]) hw
          (fun x hx => hstripped x (by simp [hx]))
          (fun x hx => htitle x (by simp [hx]))
          (by
            rw [List.countP_cons, hcw] at hcount
            simpa using hcount)
        refine ⟨hw2, ?_⟩
        rw [hres, List.append_assoc]
        rfl

/-- Running the loop from the initial state: the first non-blank line opens
the only block, the rest become its details. -/
theorem fold_start : ∀ (ls : List Str),
    (∀ l ∈ ls, strip l = l) →
    (∀ l ∈ ls, l ≠ [] → is_title l = false) →
    ((ls.filter (fun l => l ≠ [])).countP contains_week ≤ 1) →
    ∀ f rest2, ls.filter (fun l => l ≠ []) = f :: rest2 →
    ∃ hw2, ls.foldl mbStep ⟨[], none, [], false⟩ = ⟨[], some f, rest2, hw2⟩ := by
  intro ls
  induction ls with
  | nil =>
    intro _ _ _ f rest2 h
    simp at h
  | cons l rest ih =>
    intro hstripped htitle hcount f rest2 hfilter
    rw [List.foldl_cons]
    have hsl : strip l = l := hstripped l (by simp)
    by_cases hblank : l = []
    · have hstep : mbStep ⟨[], none, [], false⟩ l = ⟨[], none, [], false⟩ :=
        mbStep_blank _ l (by rw [hsl, hblank])
      rw [List.filter_cons_of_neg (by simp [hblank])] at hcount hfilter
      rw [hstep]
      exact ih (fun x hx => hstripped x (by simp [hx]))
        (fun x hx => htitle x (by simp [hx])) hcount f rest2 hfilter
    · rw [List.filter_cons_of_pos (by simpa using hblank)] at hcount hfilter
      injection hfilter with hf hrest
      subst hf
      subst hrest
      have hstep : mbStep ⟨[], none, [], false⟩ l
          = ⟨[], some l, [], contains_week l⟩ := by
        simp [mbStep, hsl, hblank]
      rw [hstep]
      obtain ⟨hw2, hres⟩ := fold_details rest l [] (contains_week l)
        (fun x hx => hstripped x (by simp [hx]))
        (fun x hx => htitle x (by simp [hx]))
        (by
          rw [List.countP_cons] at hcount
          by_cases hcw : contains_week l = true
          · rw [if_pos hcw]
            rw [hcw, if_pos rfl] at hcount
            omega
          · rw [Bool.not_eq_true] at hcw
            rw [if_neg (by simp [hcw])]
            rw [hcw] at hcount
            simpa using hcount)
      exact ⟨hw2, by rw [hres]; simp⟩

/-- C7 (amended): on a cell with at least one non-blank line, none of whose
lines is classified as a title, and at most one of whose lines carries a week
marker, `_merge_blocks` produces exactly one block whose title is the first
non-blank line and whose details are the remaining non-blank lines — not the
full original text. -/
theorem merge_blocks_no_title (content : Str)
    (h1 : nonblankLines content ≠ [])
    (h2 : ∀ l ∈ nonblankLines content, is_title l = false)
    (h3 : (nonblankLines content).countP contains_week ≤ 1) :
    merge_blocks content
      = [⟨(nonblankLines content).headD [], (nonblankLines content).tail⟩] := by
  obtain ⟨f, rest2, hfr⟩ : ∃ f r, nonblankLines content = f :: r := by
    cases h : nonblankLines content with
    | nil => exact absurd h h1
    | cons f r => exact ⟨f, r, rfl⟩
  have hfne : f ≠ [] := by
    have : f ∈ nonblankLines content := by rw [hfr]; simp
    exact (List.mem_filter.mp this).2 |> (by simpa using ·)
  obtain ⟨hw2, hfold⟩ := fold_start (linesOf content)
    (linesOf_stripped content)
    (by
      intro l hl hne
      exact h2 l (List.mem_filter.mpr ⟨hl, by simpa using hne⟩))
    (by rw [show (linesOf content).filter (fun l => l ≠ [])
          = nonblankLines content from rfl]; exact h3)
    f rest2 (by rw [show (linesOf content).filter (fun l => l ≠ [])
          = nonblankLines content from rfl]; exact hfr)
  have hflush : mbFlush ⟨[], some f, rest2, hw2⟩
      = ⟨[⟨f, rest2⟩], none, [], false⟩ := by
    unfold mbFlush
    dsimp only
    rw [if_pos hfne]
    rfl
  unfold merge_blocks
  simp only [hfold, hflush]
  rw [if_neg (by simp)]
  rw [hfr]
  rfl

/-- `merge_blocks_no_title` at a two-line auditorium-only cell. -/
theorem merge_blocks_no_title_witness :
    merge_blocks ("ауд 301\nауд 302".toList)
      = [⟨(nonblankLines ("ауд 301\nауд 302".toList)).headD [],
          (nonblankLines ("ауд 301\nауд 302".toList)).tail⟩] :=
  merge_blocks_no_title ("ауд 301\nауд 302".toList)
    (by decide) (by decide) (by decide)

/-- The claim as frozen is false: on `ауд 301\nауд 302` no line is a title,
yet the produced block's title is the first line, not the full cell text. -/
theorem merge_blocks_no_title_cex :
    ((linesOf ("ауд 301\nауд 302".toList)).all (fun l => !(is_title l))) = true ∧
    merge_blocks ("ауд 301\nауд 302".toList)
      = [⟨"ауд 301".toList, ["ауд 302".toList]⟩] ∧
    (merge_blocks ("ауд 301\nауд 302".toList)).map (fun b => b.title)
      ≠ ["ауд 301\nауд 302".toList] := by
  exact ⟨by decide, by decide, by decide⟩

/-! ### Week-filter invariance -/

/-- A text with no collected week range matches every week. -/
theorem matches_week_of_no_ranges (t : Str) (w : Nat)
    (h : weekRanges t = []) : matches_week t w = true := by
  unfold matches_week
  rw [h]
  rfl

/-- A contributing row without week annotations yields the same lesson under
any week filter as under none. -/
theorem lessonOfRow_no_week (ccols : List Str) (group_name : Str)
    (day_filter : Option Str) (W : Nat) (r : Str × Str × Row)
    (h : noWeekMarksRow ccols group_name day_filter r = true) :
    lessonOfRow ccols group_name day_filter (some W) r
      = lessonOfRow ccols group_name day_filter none r := by
  unfold noWeekMarksRow at h
  unfold lessonOfRow
  cases hcell : aggCell ccols r group_name with
  | none => rfl
  | some content =>
    rw [hcell] at h
    dsimp only at h ⊢
    by_cases hblank : strip content = []
    · rw [if_pos hblank, if_pos hblank]
    · rw [if_neg hblank, if_neg hblank]
      rw [if_neg hblank] at h
      by_cases hday : dayFilterSkip day_filter r.1 = true
      · rw [if_pos hday, if_pos hday]
      · rw [if_neg hday, if_neg hday]
        rw [if_neg hday] at h
        have hall : ∀ block ∈ merge_blocks content,
            matches_week (List.intercalate "\n".toList
              (block.title :: block.details)) W = true := by
          intro block hb
          apply matches_week_of_no_ranges
          have := List.all_eq_true.mp h block hb
          exact List.isEmpty_iff.mp this
        rw [List.filter_eq_self.mpr hall]

/-- C5: when no cell content contributing to the result carries any week
annotation — no `N н` or `N-M н` marker and no small bare `гр N-M` range —
`extract_group_schedule` returns the same lessons under `currentWeek = W`
for every `W` as under no week filter. -/
theorem week_filter_invariance (sheet : List Row) (group_name : Str)
    (day_filter : Option Str) (W : Nat)
    (h : ∀ r ∈ exceptRows (normalize_schedule (load_sheet sheet)),
      noWeekMarksRow (contentColumns (load_sheet sheet)) group_name day_filter r
        = true) :
    extract_group_schedule sheet group_name day_filter (some W)
      = extract_group_schedule sheet group_name day_filter none := by
  unfold extract_group_schedule
  by_cases hg : group_name ∈ (load_sheet sheet).cols
  · rw [if_pos hg, if_pos hg]
    cases hn : normalize_schedule (load_sheet sheet) with
    | error e => rfl
    | ok rows =>
      rw [hn] at h
      unfold exceptRows at h
      dsimp only at h ⊢
      congr 1
      apply List.filterMap_congr
      intro r hr
      exact lessonOfRow_no_week _ group_name day_filter W r (h r hr)
  · rw [if_neg hg, if_neg hg]

/-- `week_filter_invariance` at a one-lesson sheet with no week markers. -/
theorem week_filter_invariance_witness :
    extract_group_schedule exSheet ("Г1".toList) none (some 5)
      = extract_group_schedule exSheet ("Г1".toList) none none :=
  week_filter_invariance exSheet ("Г1".toList) none 5 (by decide)

/-! ### The byte-budget invariant over call sequences -/

theorem evict_max (st : ScheduleCache) :
    st.evict_oldest_if_needed.max_cache_size = st.max_cache_size := by
  unfold ScheduleCache.evict_oldest_if_needed
  by_cases h : st.current_cache_size ≤ (st.max_cache_size : Int)
  · rw [if_pos h]
  · rw [if_neg h]
    exact evictGo_max _ _ _

/-- One fresh-url `set_file_content` on a cache that is the fitting suffix of
a time-sorted insertion history extends the history: the new cache is the
fitting suffix of the extended history, the counter stays consistent and the
budget is unchanged. -/
theorem set_step (st : ScheduleCache) (now : Nat) (u : String) (c : Bytes)
    (ins : List CEntry)
    (hcache : st.file_content_cache = fitSuffix st.max_cache_size ins)
    (hsize : st.current_cache_size = entrySize st.file_content_cache)
    (hsorted : ins.Pairwise (fun a b => a.time < b.time))
    (hnodup : keysNodup ins)
    (hfresh : u ∉ ins.map (fun e => e.url))
    (htime : ∀ e ∈ ins, e.time < now) :
    (st.set_file_content now u c true).file_content_cache
      = fitSuffix st.max_cache_size (ins ++ [⟨u, now, c⟩]) ∧
    (st.set_file_content now u c true).current_cache_size
      = entrySize (st.set_file_content now u c true).file_content_cache ∧
    (st.set_file_content now u c true).max_cache_size = st.max_cache_size := by
  have hsub : st.file_content_cache.Sublist ins := by
    rw [hcache]
    exact (fitSuffix_suffix _ _).sublist
  have hfreshF : ∀ x ∈ st.file_content_cache, x.url ≠ u := by
    intro x hx hxu
    exact hfresh (by rw [← hxu]; exact List.mem_map_of_mem _ (hsub.mem hx))
  have htimeF : ∀ x ∈ st.file_content_cache, x.time < now :=
    fun x hx => htime x (hsub.mem hx)
  have hsortedF : st.file_content_cache.Pairwise (fun a b => a.time < b.time) :=
    hsorted.sublist hsub
  have hnodupF : keysNodup st.file_content_cache :=
    List.Nodup.sublist (hsub.map (fun e => e.url)) hnodup
  have hf : st.file_content_cache.find? (fun x => x.url = u) = none := by
    apply List.find?_eq_none.mpr
    intro x hx
    simpa using hfreshF x hx
  rw [set_file_content_none st now u c true hf]
  beta_reduce
  rw [if_pos rfl]
  have hdict := dictSetContent_fresh st.file_content_cache u now c hfreshF
  set F := st.file_content_cache with hF
  set newE : CEntry := ⟨u, now, c⟩ with hnewE
  have happ : fitSuffix st.max_cache_size (ins ++ [newE])
      = fitSuffix st.max_cache_size (F ++ [newE]) := by
    rw [← fitSuffix_append_one st.max_cache_size ins newE, ← hcache]
  have hsortedFN : (F ++ [newE]).Pairwise (fun a b => a.time < b.time) := by
    rw [List.pairwise_append]
    refine ⟨hsortedF, by simp, ?_⟩
    intro x hx y hy
    simp only [List.mem_singleton] at hy
    subst hy
    exact htimeF x hx
  have hnodupFN : keysNodup (F ++ [newE]) := by
    unfold keysNodup
    rw [List.map_append]
    apply List.Nodup.append hnodupF (by simp)
    intro a ha hb
    simp only [List.map_cons, List.map_nil, List.mem_singleton] at hb
    obtain ⟨x, hx, hxa⟩ := List.mem_map.mp ha
    exact hfreshF x hx (by rw [← hxa] at hb; exact hb)
  have hsizeFN : st.current_cache_size + (c.length : Int)
      = entrySize (F ++ [newE]) := by
    rw [entrySize_append, hsize, entrySize_cons, entrySize_nil]
    simp [hnewE]
  unfold ScheduleCache.evict_oldest_if_needed
  dsimp only
  rw [hdict]
  by_cases hle : st.current_cache_size + (c.length : Int)
      ≤ (st.max_cache_size : Int)
  · rw [if_pos hle]
    refine ⟨?_, ?_, rfl⟩
    · show F ++ [newE] = fitSuffix st.max_cache_size (ins ++ [newE])
      rw [happ, fitSuffix_of_le _ _ (by rw [← hsizeFN]; exact hle)]
    · show st.current_cache_size + (c.length : Int) = entrySize (F ++ [newE])
      exact hsizeFN
  · rw [if_neg hle]
    rw [sortByTime_id _ hsortedFN]
    have hfit := evictGo_fit st.max_cache_size (F ++ [newE])
      { st with file_content_cache := F ++ [newE],
                current_cache_size := st.current_cache_size + (c.length : Int) }
      rfl hnodupFN hsizeFN
    refine ⟨?_, ?_, ?_⟩
    · rw [hfit.1, happ]
    · rw [hfit.1, hfit.2]
    · exact evictGo_max _ _ _

/-- Running a fresh-urls, increasing-times call sequence extends the
insertion history call by call. -/
theorem runSets_go : ∀ (calls : List SetCall) (st : ScheduleCache)
    (ins : List CEntry),
    st.file_content_cache = fitSuffix st.max_cache_size ins →
    st.current_cache_size = entrySize st.file_content_cache →
    ins.Pairwise (fun a b => a.time < b.time) →
    keysNodup ins →
    calls.Pairwise (fun a b => a.time < b.time) →
    (calls.map (fun cl => cl.url)).Nodup →
    (∀ e ∈ ins, ∀ cl ∈ calls, e.time < cl.time) →
    (∀ cl ∈ calls, cl.url ∉ ins.map (fun e => e.url)) →
    (runSets st calls).file_content_cache
      = fitSuffix st.max_cache_size (ins ++ calls.map toEntry) ∧
    (runSets st calls).current_cache_size
      = entrySize (runSets st calls).file_content_cache ∧
    (runSets st calls).max_cache_size = st.max_cache_size := by
  intro calls
  induction calls with
  | nil =>
    intro st ins hcache hsize _ _ _ _ _ _
    refine ⟨?_, hsize, rfl⟩
    rw [List.map_nil, List.append_nil]
    exact hcache
  | cons cl cls ih =>
    intro st ins hcache hsize hsorted hnodup hcsorted hcnodup htimes hurls
    have hstep := set_step st cl.time cl.url cl.content ins hcache hsize
      hsorted hnodup (hurls cl (by simp)) (fun e he => htimes e he cl (by simp))
    have hrel : ∀ cl2 ∈ cls, cl.time < cl2.time :=
      (List.pairwise_cons.mp hcsorted).1
    have hih := ih (st.set_file_content cl.time cl.url cl.content true)
      (ins ++ [toEntry cl])
      (by rw [hstep.2.2]; exact hstep.1)
      hstep.2.1
      (by
        rw [List.pairwise_append]
        refine ⟨hsorted, by simp, ?_⟩
        intro x hx y hy
        simp only [List.mem_singleton] at hy
        subst hy
        exact htimes x hx cl (by simp))
      (by
        unfold keysNodup
        rw [List.map_append]
        apply List.Nodup.append hnodup (by simp)
        intro a ha hb
        simp only [toEntry, List.map_cons, List.map_nil, List.mem_singleton] at hb
        rw [hb] at ha
        exact hurls cl (by simp) ha)
      (List.pairwise_cons.mp hcsorted).2
      (by
        rw [List.map_cons] at hcnodup
        exact (List.nodup_cons.mp hcnodup).2)
      (by
        intro e he cl2 hcl2
        rcases List.mem_append.mp he with h1 | h1
        · exact htimes e h1 cl2 (by simp [hcl2])
        · simp only [List.mem_singleton] at h1
          subst h1
          exact hrel cl2 hcl2)
      (by
        intro cl2 hcl2
        rw [List.map_append]
        intro hmem
        rcases List.mem_append.mp hmem with h1 | h1
        · exact hurls cl2 (by simp [hcl2]) h1
        · simp only [toEntry, List.map_cons, List.map_nil,
            List.mem_singleton] at h1
          rw [List.map_cons] at hcnodup
          apply (List.nodup_cons.mp hcnodup).1
          rw [← h1]
          exact List.mem_map_of_mem _ hcl2)
    show (runSets (st.set_file_content cl.time cl.url cl.content true)
      cls).file_content_cache = _ ∧ _
    rw [List.map_cons]
    refine ⟨?_, hih.2.1, ?_⟩
    case refine_2 =>
      show (runSets (st.set_file_content cl.time cl.url cl.content true)
        cls).max_cache_size = st.max_cache_size
      rw [hih.2.2, hstep.2.2]
    rw [hih.1, hstep.2.2, List.append_assoc]
    rfl

/-- C1: after any sequence of `set_file_content` calls with strictly
increasing timestamps and pairwise distinct urls on a fresh cache, the cached
bytes fit the configured budget, and the surviving entries are exactly the
longest budget-fitting suffix of the insertion sequence — eviction removes
entries strictly oldest-insertion-first. -/
theorem raw_byte_budget (ttl_minutes maxSize : Nat) (calls : List SetCall)
    (hsorted : calls.Pairwise (fun a b => a.time < b.time))
    (hnodup : (calls.map (fun cl => cl.url)).Nodup) :
    entrySize (runSets (ScheduleCache.init ttl_minutes maxSize)
        calls).file_content_cache ≤ (maxSize : Int) ∧
    (runSets (ScheduleCache.init ttl_minutes maxSize) calls).file_content_cache
      = fitSuffix maxSize (calls.map toEntry) ∧
    (fitSuffix maxSize (calls.map toEntry)).IsSuffix (calls.map toEntry) := by
  have h := runSets_go calls (ScheduleCache.init ttl_minutes maxSize) []
    rfl rfl (by simp) (by unfold keysNodup; simp) hsorted hnodup
    (by simp) (by simp)
  rw [List.nil_append] at h
  refine ⟨?_, h.1, fitSuffix_suffix _ _⟩
  rw [h.1]
  exact entrySize_fitSuffix_le _ _

/-- `raw_byte_budget` at three concrete sets against a ten-byte budget: the
six-byte first entry is evicted, the last two survive. -/
theorem raw_byte_budget_witness :
    entrySize (runSets (ScheduleCache.init 30 10)
        [⟨1, "A", [1, 1, 1, 1, 1, 1]⟩, ⟨2, "B", [2, 2, 2, 2, 2, 2]⟩,
          ⟨3, "C", [3, 3, 3]⟩]).file_content_cache ≤ (10 : Int) ∧
    (runSets (ScheduleCache.init 30 10)
        [⟨1, "A", [1, 1, 1, 1, 1, 1]⟩, ⟨2, "B", [2, 2, 2, 2, 2, 2]⟩,
          ⟨3, "C", [3, 3, 3]⟩]).file_content_cache
      = fitSuffix 10 ([⟨1, "A", [1, 1, 1, 1, 1, 1]⟩, ⟨2, "B", [2, 2, 2, 2, 2, 2]⟩,
          ⟨3, "C", [3, 3, 3]⟩].map toEntry) ∧
    (fitSuffix 10 ([⟨1, "A", [1, 1, 1, 1, 1, 1]⟩, ⟨2, "B", [2, 2, 2, 2, 2, 2]⟩,
          ⟨3, "C", [3, 3, 3]⟩].map toEntry)).IsSuffix
      ([⟨1, "A", [1, 1, 1, 1, 1, 1]⟩, ⟨2, "B", [2, 2, 2, 2, 2, 2]⟩,
          ⟨3, "C", [3, 3, 3]⟩].map toEntry) :=
  raw_byte_budget 30 10 _ (by decide) (by decide)

end ScheduleBot
